import Mathlib

/-!
Verification of the reaction-string cleaning stage (`src/preprocessing/2_cleaning.py`)
and the template-extraction orchestrator
(`src/preprocessing/LocalTemplate/extract_from_train_data.py`).

Reaction strings are modelled as `List Char`.  The Python string operations used by
the code (`str.split`, `str.replace`, substring membership, `re.findall` for atom-map
indices) are given faithful executable models below.  RDKit and the LocalTemplate
extractor are external collaborators: the functions under verification receive them
as parameters (a parse function returning `Option` — `none` models `MolFromSmiles`
returning Python `None` — plus the structural queries the code performs on parsed
molecules).  A Python exception escaping a function is modelled by `Except.error`.
-/

/-- Characters of a reaction string. -/
abbrev Str := List Char

/-- Python exceptions that the embedded code can raise. -/
inductive PyErr where
  /-- IndexError: list index out of range (e.g. `split(">>")[1]` with no `>>`). -/
  | indexError : PyErr
  /-- AttributeError: attribute access on `None` (e.g. `None.HasSubstructMatch`). -/
  | attributeError : PyErr
deriving DecidableEq, Repr

/-- The role separator `>>` of a merged two-segment reaction string. -/
def ssep : Str := ['>', '>']

/-- The single role separator `>` of a three-segment reaction string. -/
def gsep : Str := ['>']

/-- The compound separator `.`. -/
def dsep : Str := ['.']

/-- The field separator `_` used in template labels. -/
def usep : Str := ['_']

/-- Fuel-indexed model of Python `str.split(sep)` for a nonempty separator:
leftmost, non-overlapping matches; the result is always nonempty and the
separator occurs in none of the returned parts.  The fuel is an upper bound
on the length of the string (the `0, s` case is unreachable when the fuel is
at least `s.length`). -/
def pysplitF (sep : Str) : Nat → Str → List Str
  | _, [] => [[]]
  | 0, s => [s]
  | fuel + 1, c :: rest =>
    if sep ≠ [] ∧ sep.isPrefixOf (c :: rest) then
      [] :: pysplitF sep fuel ((c :: rest).drop sep.length)
    else
      match pysplitF sep fuel rest with
      | [] => [[c]]
      | t :: ts => (c :: t) :: ts

/-- Python `s.split(sep)` for a nonempty separator. -/
def pysplit (sep s : Str) : List Str := pysplitF sep s.length s

/-- Joins a list of parts with a separator (inverse of `pysplit`). -/
def joinSep (sep : Str) : List Str → Str
  | [] => []
  | [t] => t
  | t :: t' :: ts => t ++ sep ++ joinSep sep (t' :: ts)

/-- Unfolding lemma for `joinSep` on a singleton. -/
theorem joinSep_single (sep : Str) (t : Str) : joinSep sep [t] = t := rfl

/-- Unfolding lemma for `joinSep` on two or more parts. -/
theorem joinSep_cons₂ (sep : Str) (t t' : Str) (ts : List Str) :
    joinSep sep (t :: t' :: ts) = t ++ sep ++ joinSep sep (t' :: ts) := rfl

/-- Python substring membership `pat in s`. -/
def occursB (pat : Str) : Str → Bool
  | [] => pat.isPrefixOf ([] : Str)
  | c :: rest => pat.isPrefixOf (c :: rest) || occursB pat rest

/-- Number of positions of `s` at which `pat` occurs. -/
def countOcc (pat : Str) : Str → Nat
  | [] => if pat.isPrefixOf ([] : Str) then 1 else 0
  | c :: rest => (if pat.isPrefixOf (c :: rest) then 1 else 0) + countOcc pat rest

/-- Fuel-indexed model of Python `str.replace(pat, rep)` for a nonempty pattern:
replaces leftmost non-overlapping occurrences. -/
def pyreplaceF (pat rep : Str) : Nat → Str → Str
  | _, [] => []
  | 0, s => s
  | fuel + 1, c :: rest =>
    if pat ≠ [] ∧ pat.isPrefixOf (c :: rest) then
      rep ++ pyreplaceF pat rep fuel ((c :: rest).drop pat.length)
    else
      c :: pyreplaceF pat rep fuel rest

/-- Python `s.replace(pat, rep)` for a nonempty pattern. -/
def pyreplace (pat rep s : Str) : Str := pyreplaceF pat rep s.length s

/-- Fuel bounds are irrelevant once the fuel covers the length of the string. -/
theorem pysplitF_fuel (sep : Str) :
    ∀ fuel₁ fuel₂ s, s.length ≤ fuel₁ → s.length ≤ fuel₂ →
      pysplitF sep fuel₁ s = pysplitF sep fuel₂ s := by
  intro fuel₁
  induction fuel₁ with
  | zero =>
    intro fuel₂ s hs₁ _
    cases s with
    | nil => cases fuel₂ <;> rfl
    | cons c rest => simp at hs₁
  | succ f ih =>
    intro fuel₂ s hs₁ hs₂
    cases s with
    | nil => cases fuel₂ <;> rfl
    | cons c rest =>
      cases fuel₂ with
      | zero => simp at hs₂
      | succ f₂ =>
        simp only [pysplitF]
        by_cases hpre : sep ≠ [] ∧ sep.isPrefixOf (c :: rest)
        · rw [if_pos hpre, if_pos hpre]
          have hlen : ((c :: rest).drop sep.length).length ≤ f := by
            have : 1 ≤ sep.length := by
              cases sep with
              | nil => exact absurd rfl hpre.1
              | cons a b => simp
            simp only [List.length_drop]
            omega
          have hlen₂ : ((c :: rest).drop sep.length).length ≤ f₂ := by
            have : 1 ≤ sep.length := by
              cases sep with
              | nil => exact absurd rfl hpre.1
              | cons a b => simp
            simp only [List.length_drop]
            omega
          rw [ih _ _ hlen hlen₂]
        · rw [if_neg hpre, if_neg hpre]
          have hlen : rest.length ≤ f := by simp at hs₁; omega
          have hlen₂ : rest.length ≤ f₂ := by simp at hs₂; omega
          rw [ih _ _ hlen hlen₂]

/-- The result of `pysplit` is never the empty list. -/
theorem pysplitF_ne_nil (sep : Str) : ∀ fuel s, pysplitF sep fuel s ≠ [] := by
  intro fuel
  induction fuel with
  | zero => intro s; cases s <;> simp [pysplitF]
  | succ f ih =>
    intro s
    cases s with
    | nil => simp [pysplitF]
    | cons c rest =>
      simp only [pysplitF]
      by_cases hpre : sep ≠ [] ∧ sep.isPrefixOf (c :: rest)
      · rw [if_pos hpre]; simp
      · rw [if_neg hpre]
        cases h : pysplitF sep f rest with
        | nil => simp
        | cons t ts => simp

/-- The result of `pysplit` is never the empty list. -/
theorem pysplit_ne_nil (sep s : Str) : pysplit sep s ≠ [] :=
  pysplitF_ne_nil sep s.length s

/-- Joining the parts of `pysplit` with the separator recovers the string. -/
theorem pysplitF_join (sep : Str) (hsep : sep ≠ []) :
    ∀ fuel s, s.length ≤ fuel → joinSep sep (pysplitF sep fuel s) = s := by
  intro fuel
  induction fuel with
  | zero =>
    intro s hs
    cases s with
    | nil => rfl
    | cons c rest => simp at hs
  | succ f ih =>
    intro s hs
    cases s with
    | nil => rfl
    | cons c rest =>
      simp only [pysplitF]
      by_cases hpre : sep ≠ [] ∧ sep.isPrefixOf (c :: rest)
      · rw [if_pos hpre]
        have hlen : ((c :: rest).drop sep.length).length ≤ f := by
          have : 1 ≤ sep.length := by
            cases sep with
            | nil => exact absurd rfl hpre.1
            | cons a b => simp
          simp only [List.length_drop]
          omega
        have htail := ih _ hlen
        have hne := pysplitF_ne_nil sep f ((c :: rest).drop sep.length)
        cases hsp : pysplitF sep f ((c :: rest).drop sep.length) with
        | nil => exact absurd hsp hne
        | cons t ts =>
          rw [hsp] at htail
          rw [joinSep_cons₂, htail]
          have hpref := hpre.2
          rw [List.isPrefixOf_iff_prefix] at hpref
          obtain ⟨tail, htail'⟩ := hpref
          rw [← htail']
          simp
      · rw [if_neg hpre]
        have hlen : rest.length ≤ f := by simp at hs; omega
        have htail := ih rest hlen
        have hne := pysplitF_ne_nil sep f rest
        cases hsp : pysplitF sep f rest with
        | nil => exact absurd hsp hne
        | cons t ts =>
          rw [hsp] at htail
          cases ts with
          | nil =>
            rw [joinSep_single] at htail
            rw [joinSep_single, htail]
          | cons t' ts' =>
            rw [joinSep_cons₂] at htail ⊢
            simp [← htail]

/-- Joining the parts of `pysplit` with the separator recovers the string. -/
theorem pysplit_join (sep s : Str) (hsep : sep ≠ []) :
    joinSep sep (pysplit sep s) = s :=
  pysplitF_join sep hsep s.length s (le_refl _)

/-- A string in which the separator never occurs is returned whole by `pysplit`. -/
theorem pysplitF_single (sep : Str) :
    ∀ fuel s, s.length ≤ fuel → (∀ i, ¬ sep.isPrefixOf (s.drop i)) →
      pysplitF sep fuel s = [s] := by
  intro fuel
  induction fuel with
  | zero =>
    intro s hs _
    cases s with
    | nil => rfl
    | cons c rest => simp at hs
  | succ f ih =>
    intro s hs hnone
    cases s with
    | nil => rfl
    | cons c rest =>
      simp only [pysplitF]
      have h0 := hnone 0
      simp only [List.drop_zero] at h0
      have hpre : ¬ (sep ≠ [] ∧ sep.isPrefixOf (c :: rest)) := by
        intro hc; exact h0 hc.2
      rw [if_neg hpre]
      have hlen : rest.length ≤ f := by simp at hs; omega
      have hrest : ∀ i, ¬ sep.isPrefixOf (rest.drop i) := by
        intro i h
        exact hnone (i + 1) (by simpa using h)
      rw [ih rest hlen hrest]

/-- A string in which the separator never occurs is returned whole by `pysplit`. -/
theorem pysplit_single (sep s : Str) (h : ∀ i, ¬ sep.isPrefixOf (s.drop i)) :
    pysplit sep s = [s] :=
  pysplitF_single sep s.length s (le_refl _) h

/-- One-step unfolding of `pysplit` on a nonempty string. -/
theorem pysplit_cons (sep : Str) (hsep : sep ≠ []) (c : Char) (rest : Str) :
    pysplit sep (c :: rest) =
      if sep.isPrefixOf (c :: rest) then
        [] :: pysplit sep ((c :: rest).drop sep.length)
      else
        match pysplit sep rest with
        | [] => [[c]]
        | t :: ts => (c :: t) :: ts := by
  have hsl : 1 ≤ sep.length := by
    cases sep with
    | nil => exact absurd rfl hsep
    | cons a b => simp
  by_cases hpre : sep.isPrefixOf (c :: rest)
  · rw [if_pos hpre]
    show pysplitF sep (c :: rest).length (c :: rest) = _
    simp only [pysplitF, List.length_cons]
    rw [if_pos ⟨hsep, hpre⟩]
    have h₁ : ((c :: rest).drop sep.length).length ≤ rest.length := by
      simp only [List.length_drop, List.length_cons]
      omega
    rw [pysplitF_fuel sep rest.length ((c :: rest).drop sep.length).length _ h₁ (le_refl _)]
    rfl
  · rw [if_neg hpre]
    show pysplitF sep (c :: rest).length (c :: rest) = _
    simp only [pysplitF, List.length_cons]
    rw [if_neg (by intro hc; exact hpre hc.2)]
    rfl

/-- The head part of a `pysplitF` decomposition is a prefix of the string. -/
theorem pysplitF_headI_prefix (sep : Str) :
    ∀ fuel s, (pysplitF sep fuel s).headI <+: s := by
  intro fuel
  induction fuel with
  | zero =>
    intro s
    cases s with
    | nil => simp [pysplitF]
    | cons c rest => simp [pysplitF]
  | succ f ih =>
    intro s
    cases s with
    | nil => simp [pysplitF]
    | cons c rest =>
      simp only [pysplitF]
      by_cases hpre : sep ≠ [] ∧ sep.isPrefixOf (c :: rest)
      · rw [if_pos hpre]
        simp
      · rw [if_neg hpre]
        have := ih rest
        cases hsp : pysplitF sep f rest with
        | nil => simp
        | cons t ts =>
          rw [hsp] at this
          simp only [List.headI] at this ⊢
          obtain ⟨u, hu⟩ := this
          exact ⟨u, by simp [← hu]⟩

/-- The separator occurs in none of the parts returned by `pysplitF`. -/
theorem pysplitF_parts (sep : Str) (hsep : sep ≠ []) :
    ∀ fuel s, s.length ≤ fuel → ∀ t ∈ pysplitF sep fuel s, ∀ i,
      ¬ sep.isPrefixOf (t.drop i) := by
  have hnil : ¬ sep.isPrefixOf ([] : Str) := by
    cases sep with
    | nil => exact absurd rfl hsep
    | cons a b => simp [List.isPrefixOf]
  intro fuel
  induction fuel with
  | zero =>
    intro s hs t ht i
    cases s with
    | nil =>
      simp only [pysplitF, List.mem_singleton] at ht
      subst ht
      simpa using hnil
    | cons c rest => simp at hs
  | succ f ih =>
    intro s hs t ht i
    cases s with
    | nil =>
      simp only [pysplitF, List.mem_singleton] at ht
      subst ht
      simpa using hnil
    | cons c rest =>
      simp only [pysplitF] at ht
      by_cases hpre : sep ≠ [] ∧ sep.isPrefixOf (c :: rest)
      · rw [if_pos hpre] at ht
        rcases List.mem_cons.mp ht with h | h
        · subst h; simpa using hnil
        · have hsl : 1 ≤ sep.length := by
            cases sep with
            | nil => exact absurd rfl hsep
            | cons a b => simp
          have hlen : ((c :: rest).drop sep.length).length ≤ f := by
            simp only [List.length_drop, List.length_cons]
            simp only [List.length_cons] at hs
            omega
          exact ih _ hlen t h i
      · rw [if_neg hpre] at ht
        have hlen : rest.length ≤ f := by
          simp only [List.length_cons] at hs; omega
        have hne := pysplitF_ne_nil sep f rest
        cases hsp : pysplitF sep f rest with
        | nil => exact absurd hsp hne
        | cons t0 ts =>
          rw [hsp] at ht
          rcases List.mem_cons.mp ht with h | h
          · subst h
            cases i with
            | zero =>
              intro hcontra
              have ht0 : t0 <+: rest := by
                have := pysplitF_headI_prefix sep f rest
                rw [hsp] at this
                simpa using this
              obtain ⟨u, hu⟩ := ht0
              rw [List.drop_zero] at hcontra
              rw [List.isPrefixOf_iff_prefix] at hcontra
              have : sep <+: c :: rest := by
                refine hcontra.trans ⟨u, ?_⟩
                rw [← hu]; rfl
              rw [← List.isPrefixOf_iff_prefix] at this
              exact hpre ⟨hsep, this⟩
            | succ i' =>
              have := ih rest hlen t0 (by rw [hsp]; exact List.mem_cons_self _ _) i'
              simpa using this
          · exact ih rest hlen t (by rw [hsp]; exact List.mem_cons.mpr (Or.inr h)) i

/-- The separator occurs in none of the parts returned by `pysplit`. -/
theorem pysplit_parts (sep : Str) (hsep : sep ≠ []) (s : Str) :
    ∀ t ∈ pysplit sep s, ∀ i, ¬ sep.isPrefixOf (t.drop i) :=
  pysplitF_parts sep hsep s.length s (le_refl _)

/-- If a pattern has head character `h` and `h` does not occur in `a`, the
pattern matches at no position inside the `a`-segment of `a ++ v`. -/
theorem no_prefix_headchar {h : Char} {p a v : Str} (hmem : h ∉ a) :
    ∀ i, i < a.length → ¬ (h :: p).isPrefixOf ((a ++ v).drop i) := by
  intro i hi hcontra
  rw [List.drop_append_of_le_length (le_of_lt hi)] at hcontra
  rw [List.drop_eq_getElem_cons hi] at hcontra
  simp only [List.cons_append, List.isPrefixOf, Bool.and_eq_true, beq_iff_eq] at hcontra
  exact hmem (hcontra.1 ▸ List.getElem_mem hi)

/-- Splitting `a ++ sep ++ t` when the separator matches nowhere inside `a`
yields `a` followed by the split of `t`. -/
theorem pysplit_prepend (sep : Str) (hsep : sep ≠ []) :
    ∀ (a t : Str), (∀ i, i < a.length → ¬ sep.isPrefixOf ((a ++ sep ++ t).drop i)) →
      pysplit sep (a ++ sep ++ t) = a :: pysplit sep t := by
  intro a
  induction a with
  | nil =>
    intro t _
    cases hse : sep with
    | nil => exact absurd hse hsep
    | cons c srest =>
      subst hse
      simp only [List.nil_append, List.cons_append]
      rw [pysplit_cons _ hsep]
      have hpre : (c :: srest).isPrefixOf (c :: (srest ++ t)) := by
        rw [List.isPrefixOf_iff_prefix]
        exact ⟨t, by simp⟩
      rw [if_pos hpre]
      have hdrop : (c :: (srest ++ t)).drop (c :: srest).length = t := by
        simp only [List.length_cons, List.drop_succ_cons]
        exact List.drop_left srest t
      rw [hdrop]
  | cons ch a' ih =>
    intro t hno
    simp only [List.cons_append]
    rw [pysplit_cons sep hsep]
    have h0 := hno 0 (by simp)
    simp only [List.drop_zero, List.cons_append] at h0
    rw [if_neg h0]
    have hrec := ih t (by
      intro i hi hc
      have := hno (i + 1) (by simp only [List.length_cons]; omega)
      simp only [List.cons_append, List.drop_succ_cons] at this
      exact this hc)
    simp only [List.cons_append] at hrec
    rw [hrec]

/-- Substring membership holds exactly when the pattern matches at some position. -/
theorem occursB_iff (pat s : Str) :
    occursB pat s = true ↔ ∃ i, pat.isPrefixOf (s.drop i) := by
  induction s with
  | nil =>
    simp only [occursB]
    constructor
    · intro h; exact ⟨0, by simpa using h⟩
    · rintro ⟨i, hi⟩; simpa using hi
  | cons c rest ih =>
    simp only [occursB, Bool.or_eq_true]
    constructor
    · rintro (h | h)
      · exact ⟨0, by simpa using h⟩
      · obtain ⟨i, hi⟩ := ih.mp h
        exact ⟨i + 1, by simpa using hi⟩
    · rintro ⟨i, hi⟩
      cases i with
      | zero => exact Or.inl (by simpa using hi)
      | succ i' => exact Or.inr (ih.mpr ⟨i', by simpa using hi⟩)

/-- Unfolding lemma for `countOcc` on a nonempty string. -/
theorem countOcc_cons (pat : Str) (c : Char) (rest : Str) :
    countOcc pat (c :: rest) =
      (if pat.isPrefixOf (c :: rest) then 1 else 0) + countOcc pat rest := rfl

/-- A pattern with head character `h` occurs zero times in a string avoiding `h`. -/
theorem countOcc_zero_of_not_mem {h : Char} {p s : Str} (hmem : h ∉ s) :
    countOcc (h :: p) s = 0 := by
  induction s with
  | nil => simp [countOcc, List.isPrefixOf]
  | cons c rest ih =>
    simp only [countOcc]
    have hc : ¬ (h :: p).isPrefixOf (c :: rest) := by
      intro hcontra
      simp only [List.isPrefixOf, Bool.and_eq_true, beq_iff_eq] at hcontra
      exact hmem (hcontra.1 ▸ List.mem_cons_self _ _)
    rw [if_neg hc, ih (fun hm => hmem (List.mem_cons.mpr (Or.inr hm)))]

/-- Prepending characters avoiding the pattern's head does not change the count. -/
theorem countOcc_headchar_append {h : Char} {p : Str} (a v : Str) (hmem : h ∉ a) :
    countOcc (h :: p) (a ++ v) = countOcc (h :: p) v := by
  induction a with
  | nil => simp
  | cons c a' ih =>
    rw [List.cons_append, countOcc_cons]
    have hc : ¬ (h :: p).isPrefixOf (c :: (a' ++ v)) := by
      intro hcontra
      simp only [List.isPrefixOf, Bool.and_eq_true, beq_iff_eq] at hcontra
      exact hmem (hcontra.1 ▸ List.mem_cons_self _ _)
    rw [if_neg hc, ih (fun hm => hmem (List.mem_cons.mpr (Or.inr hm)))]
    simp

/-- Characters of a string literal. -/
def strChars (s : String) : Str := s.data

/-- Sentinel returned by `reactant_count_filter`. -/
def errTooManyReactants : Str := strChars "Error: too many reactants"

/-- Sentinel returned by `multiproduct_fixer` when a product fails to parse. -/
def errInvalidProduct : Str := strChars "Error: invalid product"

/-- Sentinel returned by `multiproduct_fixer` when not exactly one product survives. -/
def errTooManyProducts : Str := strChars "Error: too many products"

/-- Sentinel returned by `multiproduct_fixer` for a bad single product. -/
def errProductSmilesError : Str := strChars "Error: product smiles error"

/-- Sentinel returned by `no_carbon`. -/
def errNoOrganic : Str := strChars "Error: no organic product"

/-- A string carrying the rejection prefix used throughout the filter chain. -/
def errPrefixed (s : Str) : Prop := (strChars "Error: ").isPrefixOf s

/-- Model of `join_reactants_reagents` (`2_cleaning.py` lines 66-73): pass a
merged-form string through; otherwise split on the single role separator and
rebuild reactants `.` reagents `>>` products.  Indexing a segment that does
not exist raises IndexError. -/
def join_reactants_reagents (rxn_map : Str) : Except PyErr Str :=
  if occursB ssep rxn_map then .ok rxn_map
  else
    let rxn := pysplit gsep rxn_map
    match rxn[0]?, rxn[1]?, rxn[2]? with
    | some r0, some r1, some r2 => .ok (r0 ++ dsep ++ r1 ++ ssep ++ r2)
    | _, _, _ => .error .indexError

/-- Model of `reactant_count_filter` (`2_cleaning.py` lines 104-110): count the
dot-separated reactant compounds of the segment before `>>` and reject unless
the count is in `[1, 5)`. -/
def reactant_count_filter (rxn_map : Str) : Str :=
  let reactants := pysplit dsep ((pysplit ssep rxn_map).headI)
  let count := reactants.length
  if count < 5 ∧ count ≥ 1 then rxn_map else errTooManyReactants

/-- Model of `no_carbon` (`2_cleaning.py` lines 135-142).  `parse` stands for
RDKit's `MolFromSmiles` (`none` = Python `None`); `hasCarbonMatch` stands for
`mol.HasSubstructMatch(MolFromSmarts("[#6]"))`.  The code calls
`mol.HasSubstructMatch` without a `None` check, so an unparseable product
raises AttributeError, and a missing `>>` raises IndexError. -/
def no_carbon {M : Type} (parse : Str → Option M) (hasCarbonMatch : M → Bool)
    (rxn_map : Str) : Except PyErr Str :=
  match (pysplit ssep rxn_map)[1]? with
  | none => .error .indexError
  | some prod =>
    match parse prod with
    | none => .error .attributeError
    | some mol => if hasCarbonMatch mol then .ok rxn_map else .ok errNoOrganic

/-- Model of `remove_stereoalchemy` (`2_cleaning.py` lines 145-158).
`stripStereo` is the composite `MolFromSmiles` → `RemoveStereochemistry` →
`MolToSmiles` on the product segment; `none` models an unparseable product, in
which case `Chem.RemoveStereochemistry(None)` raises.  The final step is
Python's `rxn.replace(p, new_p)`, which replaces every occurrence of the
product segment in the whole string. -/
def remove_stereoalchemy (stripStereo : Str → Option Str) (rxn : Str) :
    Except PyErr Str :=
  let r := (pysplit ssep rxn).headI
  match (pysplit ssep rxn)[1]? with
  | none => .error .indexError
  | some p =>
    if occursB ['@'] p then
      if occursB ['@'] r then .ok rxn
      else
        match stripStereo p with
        | none => .error .attributeError
        | some new_p => .ok (pyreplace p new_p rxn)
    else .ok rxn

/-- Single-character substring membership coincides with list membership. -/
theorem occursB_single_iff_mem (x : Char) (s : Str) :
    occursB [x] s = true ↔ x ∈ s := by
  induction s with
  | nil => simp [occursB, List.isPrefixOf]
  | cons c rest ih =>
    simp only [occursB, Bool.or_eq_true, List.mem_cons, ih]
    constructor
    · rintro (h | h)
      · simp only [List.isPrefixOf, Bool.and_eq_true, beq_iff_eq] at h
        exact Or.inl h.1
      · exact Or.inr h
    · rintro (h | h)
      · exact Or.inl (by simp [List.isPrefixOf, h])
      · exact Or.inr h

/-- A single-character pattern matching at no position means the character is absent. -/
theorem not_mem_of_no_single_prefix {x : Char} {t : Str}
    (h : ∀ i, ¬ ([x]).isPrefixOf (t.drop i)) : x ∉ t := by
  intro hmem
  obtain ⟨i, hi, heq⟩ := List.mem_iff_getElem.mp hmem
  apply h i
  rw [List.drop_eq_getElem_cons hi, heq]
  simp [List.isPrefixOf]

/-- Characterization of a `>>` match. -/
theorem ssep_isPrefixOf_iff (s : Str) :
    ssep.isPrefixOf s = true ↔ ∃ u, s = '>' :: '>' :: u := by
  cases s with
  | nil => simp [ssep, List.isPrefixOf]
  | cons a u =>
    cases u with
    | nil => simp [ssep, List.isPrefixOf]
    | cons b v =>
      simp only [ssep, List.isPrefixOf, Bool.and_eq_true, beq_iff_eq]
      constructor
      · rintro ⟨h1, h2, -⟩
        exact ⟨v, by rw [← h1, ← h2]⟩
      · rintro ⟨w, hw⟩
        injection hw with ha htail
        injection htail with hb hv
        exact ⟨ha.symm, hb.symm, trivial⟩

/-- The role separator as an explicit cons. -/
theorem ssep_eq : ssep = '>' :: ['>'] := rfl

/-- A string without occurrences of the pattern has `occursB` false. -/
theorem occursB_eq_false_of_countOcc_zero {pat s : Str} (h : countOcc pat s = 0) :
    occursB pat s = false := by
  induction s with
  | nil =>
    simp only [countOcc] at h
    by_cases hp : pat.isPrefixOf ([] : Str)
    · rw [if_pos hp] at h; omega
    · simp only [occursB]
      exact Bool.eq_false_iff.mpr hp
  | cons c rest ih =>
    rw [countOcc_cons] at h
    by_cases hp : pat.isPrefixOf (c :: rest)
    · rw [if_pos hp] at h; omega
    · rw [if_neg hp] at h
      simp only [occursB, Bool.or_eq_false_iff]
      exact ⟨Bool.eq_false_iff.mpr hp, ih (by omega)⟩

/-- The `>>` pattern occurs zero times in a string avoiding `>`. -/
theorem countOcc_ssep_of_not_mem {s : Str} (h : '>' ∉ s) : countOcc ssep s = 0 := by
  rw [ssep_eq]
  exact countOcc_zero_of_not_mem h

/-- The `>>` pattern occurs zero times in `>` followed by a `>`-free string. -/
theorem countOcc_ssep_gt_cons (p2 : Str) (h2m : '>' ∉ p2) :
    countOcc ssep ('>' :: p2) = 0 := by
  rw [countOcc_cons]
  have hnp : ¬ ssep.isPrefixOf ('>' :: p2) = true := by
    rw [ssep_isPrefixOf_iff]
    rintro ⟨u, hu⟩
    injection hu with h1 h2
    exact h2m (h2 ▸ List.mem_cons_self _ _)
  rw [if_neg hnp, countOcc_ssep_of_not_mem h2m]

/-- Prepending a `>`-free string does not change the number of `>>` occurrences. -/
theorem countOcc_ssep_headchar_append (a v : Str) (hmem : '>' ∉ a) :
    countOcc ssep (a ++ v) = countOcc ssep v := by
  rw [ssep_eq]
  exact countOcc_headchar_append a v hmem

/-- C7: on a merged two-segment reaction string, `reactant_count_filter` returns
the "Error: too many reactants" sentinel exactly when the reactant-compound
count (the length of the dot-split of the segment before `>>`, which is never
zero) is 0 or greater than 4, and returns its input unchanged whenever the
count is in `[1, 4]`. -/
theorem reactant_count_filter_spec (rxn_map : Str)
    (hm : (pysplit ssep rxn_map).length = 2) :
    (reactant_count_filter rxn_map = errTooManyReactants ↔
      ((pysplit dsep ((pysplit ssep rxn_map).headI)).length = 0 ∨
        4 < (pysplit dsep ((pysplit ssep rxn_map).headI)).length)) ∧
    ((1 ≤ (pysplit dsep ((pysplit ssep rxn_map).headI)).length ∧
        (pysplit dsep ((pysplit ssep rxn_map).headI)).length ≤ 4) →
      reactant_count_filter rxn_map = rxn_map) := by
  have hpos : 1 ≤ (pysplit dsep ((pysplit ssep rxn_map).headI)).length :=
    List.length_pos.mpr (pysplit_ne_nil _ _)
  have hne_err : rxn_map ≠ errTooManyReactants := by
    intro heq
    rw [heq] at hm
    revert hm
    decide
  unfold reactant_count_filter
  by_cases hlt : (pysplit dsep ((pysplit ssep rxn_map).headI)).length < 5
  · rw [if_pos ⟨hlt, hpos⟩]
    refine ⟨⟨fun h => absurd h hne_err, fun h => ?_⟩, fun _ => rfl⟩
    rcases h with h | h <;> omega
  · rw [if_neg (fun hc => hlt hc.1)]
    refine ⟨⟨fun _ => Or.inr (by omega), fun _ => rfl⟩, fun h => by omega⟩

/-- Witness for C7: a merged reaction with two reactant compounds passes unchanged. -/
theorem reactant_count_filter_spec_witness :
    (1 ≤ (pysplit dsep ((pysplit ssep (strChars "CC.O>>C")).headI)).length ∧
      (pysplit dsep ((pysplit ssep (strChars "CC.O>>C")).headI)).length ≤ 4) ∧
    reactant_count_filter (strChars "CC.O>>C") = strChars "CC.O>>C" :=
  ⟨by decide, (reactant_count_filter_spec (strChars "CC.O>>C") (by decide)).2 (by decide)⟩

/-- C9: `join_reactants_reagents` is the identity on merged-form strings, and on a
three-segment string with a nonempty reagent segment it returns the reactant and
reagent segments joined by the compound separator before `>>` and the product
segment, with exactly one occurrence of the role-separator pair in the output. -/
theorem join_reactants_reagents_spec (rxn_map : Str) :
    (occursB ssep rxn_map = true → join_reactants_reagents rxn_map = .ok rxn_map) ∧
    (∀ p0 p1 p2, pysplit gsep rxn_map = [p0, p1, p2] → p1 ≠ [] →
      join_reactants_reagents rxn_map = .ok (p0 ++ dsep ++ p1 ++ ssep ++ p2) ∧
      countOcc ssep (p0 ++ dsep ++ p1 ++ ssep ++ p2) = 1) := by
  constructor
  · intro h
    unfold join_reactants_reagents
    rw [if_pos h]
  · intro p0 p1 p2 hsplit hp1
    have hgt : ∀ t ∈ pysplit gsep rxn_map, '>' ∉ t := fun t ht =>
      not_mem_of_no_single_prefix (pysplit_parts gsep (by simp [gsep]) rxn_map t ht)
    have h0 : '>' ∉ p0 := hgt p0 (by rw [hsplit]; simp)
    have h1m : '>' ∉ p1 := hgt p1 (by rw [hsplit]; simp)
    have h2m : '>' ∉ p2 := hgt p2 (by rw [hsplit]; simp)
    have hjoin : p0 ++ gsep ++ (p1 ++ gsep ++ p2) = rxn_map := by
      have hj := pysplit_join gsep rxn_map (by simp [gsep])
      rw [hsplit, joinSep_cons₂, joinSep_cons₂, joinSep_single] at hj
      exact hj
    have hcnt0 : countOcc ssep rxn_map = 0 := by
      rw [← hjoin]
      simp only [List.append_assoc]
      rw [countOcc_ssep_headchar_append p0 _ h0]
      have hstep : gsep ++ (p1 ++ (gsep ++ p2)) = '>' :: (p1 ++ (gsep ++ p2)) := rfl
      rw [hstep, countOcc_cons]
      have hnp : ¬ ssep.isPrefixOf ('>' :: (p1 ++ (gsep ++ p2))) = true := by
        rw [ssep_isPrefixOf_iff]
        rintro ⟨u, hu⟩
        injection hu with h1 h2
        cases p1 with
        | nil => exact hp1 rfl
        | cons q p1' =>
          injection h2 with hq _
          exact h1m (hq ▸ List.mem_cons_self _ _)
      rw [if_neg hnp, countOcc_ssep_headchar_append p1 _ h1m]
      have hstep2 : gsep ++ p2 = '>' :: p2 := rfl
      rw [hstep2, countOcc_ssep_gt_cons p2 h2m]
    have hocc : occursB ssep rxn_map = false := occursB_eq_false_of_countOcc_zero hcnt0
    constructor
    · unfold join_reactants_reagents
      rw [if_neg (by rw [hocc]; exact Bool.false_ne_true), hsplit]
      rfl
    · simp only [List.append_assoc]
      rw [countOcc_ssep_headchar_append p0 _ h0]
      have hd : dsep ++ (p1 ++ (ssep ++ p2)) = '.' :: (p1 ++ (ssep ++ p2)) := rfl
      rw [hd, countOcc_cons]
      have hnp : ¬ ssep.isPrefixOf ('.' :: (p1 ++ (ssep ++ p2))) = true := by
        rw [ssep_isPrefixOf_iff]
        rintro ⟨u, hu⟩
        injection hu with hc _
        exact absurd hc (by decide)
      rw [if_neg hnp, countOcc_ssep_headchar_append p1 _ h1m]
      have hs2 : ssep ++ p2 = '>' :: ('>' :: p2) := rfl
      rw [hs2, countOcc_cons]
      have hyes : ssep.isPrefixOf ('>' :: ('>' :: p2)) = true := by
        rw [ssep_isPrefixOf_iff]
        exact ⟨p2, rfl⟩
      rw [if_pos hyes, countOcc_ssep_gt_cons p2 h2m]

/-- Witness for C9: a three-segment string with a nonempty reagent segment. -/
theorem join_reactants_reagents_spec_witness :
    join_reactants_reagents (strChars "CC.N>O>CCO") =
      .ok (strChars "CC.N" ++ dsep ++ strChars "O" ++ ssep ++ strChars "CCO") ∧
    countOcc ssep (strChars "CC.N" ++ dsep ++ strChars "O" ++ ssep ++ strChars "CCO") = 1 :=
  (join_reactants_reagents_spec (strChars "CC.N>O>CCO")).2 (strChars "CC.N")
    (strChars "O") (strChars "CCO") (by decide) (by decide)

/-- Fuel bounds are irrelevant for `pyreplaceF` once the fuel covers the string. -/
theorem pyreplaceF_fuel (pat rep : Str) :
    ∀ fuel₁ fuel₂ s, s.length ≤ fuel₁ → s.length ≤ fuel₂ →
      pyreplaceF pat rep fuel₁ s = pyreplaceF pat rep fuel₂ s := by
  intro fuel₁
  induction fuel₁ with
  | zero =>
    intro fuel₂ s hs₁ _
    cases s with
    | nil => cases fuel₂ <;> rfl
    | cons c rest => simp at hs₁
  | succ f ih =>
    intro fuel₂ s hs₁ hs₂
    cases s with
    | nil => cases fuel₂ <;> rfl
    | cons c rest =>
      cases fuel₂ with
      | zero => simp at hs₂
      | succ f₂ =>
        simp only [pyreplaceF]
        by_cases hpre : pat ≠ [] ∧ pat.isPrefixOf (c :: rest)
        · rw [if_pos hpre, if_pos hpre]
          have hpl : 1 ≤ pat.length := by
            cases pat with
            | nil => exact absurd rfl hpre.1
            | cons a b => simp
          have hlen : ((c :: rest).drop pat.length).length ≤ f := by
            simp only [List.length_drop]; omega
          have hlen₂ : ((c :: rest).drop pat.length).length ≤ f₂ := by
            simp only [List.length_drop]; omega
          rw [ih _ _ hlen hlen₂]
        · rw [if_neg hpre, if_neg hpre]
          have hlen : rest.length ≤ f := by simp at hs₁; omega
          have hlen₂ : rest.length ≤ f₂ := by simp at hs₂; omega
          rw [ih _ _ hlen hlen₂]

/-- One-step unfolding of `pyreplace` on a nonempty string. -/
theorem pyreplace_cons (pat rep : Str) (hpat : pat ≠ []) (c : Char) (rest : Str) :
    pyreplace pat rep (c :: rest) =
      if pat.isPrefixOf (c :: rest) then
        rep ++ pyreplace pat rep ((c :: rest).drop pat.length)
      else c :: pyreplace pat rep rest := by
  have hpl : 1 ≤ pat.length := by
    cases pat with
    | nil => exact absurd rfl hpat
    | cons a b => simp
  by_cases hpre : pat.isPrefixOf (c :: rest)
  · rw [if_pos hpre]
    show pyreplaceF pat rep (c :: rest).length (c :: rest) = _
    simp only [pyreplaceF, List.length_cons]
    rw [if_pos ⟨hpat, hpre⟩]
    have h₁ : ((c :: rest).drop pat.length).length ≤ rest.length := by
      simp only [List.length_drop, List.length_cons]; omega
    rw [pyreplaceF_fuel pat rep rest.length ((c :: rest).drop pat.length).length _ h₁
      (le_refl _)]
    rfl
  · rw [if_neg hpre]
    show pyreplaceF pat rep (c :: rest).length (c :: rest) = _
    simp only [pyreplaceF, List.length_cons]
    rw [if_neg (by intro hc; exact hpre hc.2)]
    rfl

/-- Replacing a pattern that occurs only as the final segment rewrites exactly
that occurrence. -/
theorem pyreplace_tail_occurrence (pat rep : Str) (hpat : pat ≠ []) :
    ∀ a, (∀ i, i < a.length → ¬ pat.isPrefixOf ((a ++ pat).drop i)) →
      pyreplace pat rep (a ++ pat) = a ++ rep := by
  intro a
  induction a with
  | nil =>
    intro _
    simp only [List.nil_append]
    cases hp : pat with
    | nil => exact absurd hp hpat
    | cons pc pr =>
      rw [pyreplace_cons _ _ (by simp) pc pr]
      rw [if_pos (by rw [List.isPrefixOf_iff_prefix])]
      rw [List.drop_length]
      simp [pyreplace, pyreplaceF]
  | cons ch a' ih =>
    intro hno
    rw [List.cons_append, pyreplace_cons pat rep hpat]
    have h0 := hno 0 (by simp)
    simp only [List.drop_zero, List.cons_append] at h0
    rw [if_neg h0]
    rw [ih (by
      intro i hi hc
      have := hno (i + 1) (by simp only [List.length_cons]; omega)
      simp only [List.cons_append, List.drop_succ_cons] at this
      exact this hc)]
    rfl

/-- In a merged reaction `r >> p` whose product `p` contains `@` while the
reactant segment `r` does not, the product segment matches at no position
before its canonical final position. -/
theorem stereo_no_early_occurrence (r p : Str) (hat_p : '@' ∈ p) (hat_r : '@' ∉ r)
    (hnss : ∀ i, ¬ ssep.isPrefixOf (p.drop i)) :
    ∀ i, i < (r ++ ssep).length → ¬ p.isPrefixOf ((r ++ ssep ++ p).drop i) := by
  have hs : r ++ ssep ++ p = r ++ ('>' :: ('>' :: p)) := by
    rw [List.append_assoc]; rfl
  have f2 : (r ++ ('>' :: ('>' :: p)))[r.length]? = some '>' := by
    rw [List.getElem?_append_right (le_refl _)]
    simp
  have f3 : (r ++ ('>' :: ('>' :: p)))[r.length + 1]? = some '>' := by
    rw [List.getElem?_append_right (by omega)]
    simp [show r.length + 1 - r.length = 1 from by omega]
  have f4 : ∀ k, (r ++ ('>' :: ('>' :: p)))[r.length + 2 + k]? = p[k]? := by
    intro k
    rw [List.getElem?_append_right (by omega)]
    rw [show r.length + 2 + k - r.length = k + 1 + 1 from by omega]
    rw [List.getElem?_cons_succ, List.getElem?_cons_succ]
  intro i hi hpre
  rw [List.isPrefixOf_iff_prefix] at hpre
  obtain ⟨u, hu⟩ := hpre
  have hilt : i < r.length + 2 := by
    simpa [ssep] using hi
  have hchar : ∀ k, k < p.length → (r ++ ('>' :: ('>' :: p)))[i + k]? = p[k]? := by
    intro k hk
    rw [← hs, ← List.getElem?_drop (r ++ ssep ++ p) i k, ← hu]
    rw [List.getElem?_append]
    rw [if_pos hk]
  obtain ⟨j, hj, hpj⟩ := List.mem_iff_getElem.mp hat_p
  have hpj2 : p[j]? = some '@' := by rw [List.getElem?_eq_getElem hj, hpj]
  have hij : r.length + 2 ≤ i + j := by
    by_contra hlt
    push_neg at hlt
    have hij' : (r ++ ('>' :: ('>' :: p)))[i + j]? = some '@' := by
      rw [hchar j hj, hpj2]
    have htri : i + j < r.length ∨ i + j = r.length ∨ i + j = r.length + 1 := by omega
    rcases htri with hc | hc | hc
    · rw [List.getElem?_append] at hij'
      rw [if_pos hc] at hij'
      rw [List.getElem?_eq_some] at hij'
      obtain ⟨hlt2, heq⟩ := hij'
      exact hat_r (heq ▸ List.getElem_mem hlt2)
    · rw [hc, f2] at hij'
      exact absurd (Option.some.inj hij') (by decide)
    · rw [hc, f3] at hij'
      exact absurd (Option.some.inj hij') (by decide)
  rcases Nat.lt_or_ge i (r.length + 1) with hc1 | hc2
  · -- the match would start inside `r` or at the first `>`
    have hk2lt : r.length + 1 - i < p.length := by omega
    have hk1lt : r.length - i < p.length := by omega
    have hk1 : p[r.length - i]? = some '>' := by
      have h := hchar (r.length - i) hk1lt
      rw [show i + (r.length - i) = r.length from by omega, f2] at h
      exact h.symm
    have hk2 : p[r.length + 1 - i]? = some '>' := by
      have h := hchar (r.length + 1 - i) hk2lt
      rw [show i + (r.length + 1 - i) = r.length + 1 from by omega, f3] at h
      exact h.symm
    apply hnss (r.length - i)
    rw [List.getElem?_eq_some] at hk1 hk2
    obtain ⟨hl1, he1⟩ := hk1
    obtain ⟨hl2, he2⟩ := hk2
    rw [List.drop_eq_getElem_cons hl1, he1]
    rw [show r.length - i + 1 = r.length + 1 - i from by omega]
    rw [List.drop_eq_getElem_cons hl2, he2]
    rw [ssep_isPrefixOf_iff]
    exact ⟨_, rfl⟩
  · -- the match would start at the second `>`: `p` would be constant `>`
    have hieq : i = r.length + 1 := by omega
    have h0lt : 0 < p.length := by omega
    have hp0 : p[0]? = some '>' := by
      have h := hchar 0 h0lt
      rw [hieq, Nat.add_zero, f3] at h
      exact h.symm
    have hconst : ∀ k, k < p.length → p[k]? = some '>' := by
      intro k
      induction k with
      | zero => intro _; exact hp0
      | succ k' ihk =>
        intro hk
        have hs1 := hchar (k' + 1) hk
        rw [hieq, show r.length + 1 + (k' + 1) = r.length + 2 + k' from by omega, f4] at hs1
        rw [← hs1]
        exact ihk (by omega)
    have hcj := hconst j hj
    rw [hpj2] at hcj
    exact absurd (Option.some.inj hcj) (by decide)

/-- C5: on a merged two-segment reaction whose product segment contains the
stereocenter marker `@` while the reactant segment contains none, and whose
product parses, `remove_stereoalchemy` rewrites only the product segment: the
output is the unchanged reactant segment, the role separator, and the
stereo-stripped product. -/
theorem remove_stereoalchemy_frame (stripStereo : Str → Option Str)
    (rxn r p new_p : Str) (hsplit : pysplit ssep rxn = [r, p])
    (hat_p : occursB ['@'] p = true) (hat_r : occursB ['@'] r = false)
    (hstrip : stripStereo p = some new_p) :
    remove_stereoalchemy stripStereo rxn = .ok (r ++ ssep ++ new_p) := by
  have hjoin : r ++ ssep ++ p = rxn := by
    have hj := pysplit_join ssep rxn (by simp [ssep])
    rw [hsplit, joinSep_cons₂, joinSep_single] at hj
    exact hj
  have hmem_p : '@' ∈ p := (occursB_single_iff_mem '@' p).mp hat_p
  have hmem_r : '@' ∉ r := fun hc => by
    have hb := (occursB_single_iff_mem '@' r).mpr hc
    rw [hat_r] at hb
    exact Bool.false_ne_true hb
  have hnss : ∀ i, ¬ ssep.isPrefixOf (p.drop i) :=
    pysplit_parts ssep (by simp [ssep]) rxn p (by rw [hsplit]; simp)
  unfold remove_stereoalchemy
  rw [hsplit]
  simp only [List.getElem?_cons_succ, List.getElem?_cons_zero, List.headI]
  rw [if_pos hat_p, if_neg (by rw [hat_r]; exact Bool.false_ne_true), hstrip]
  show Except.ok (pyreplace p new_p rxn) = _
  rw [← hjoin]
  exact congrArg Except.ok (pyreplace_tail_occurrence p new_p
    (List.ne_nil_of_mem hmem_p) (r ++ ssep)
    (stereo_no_early_occurrence r p hmem_p hmem_r hnss))

/-- Witness for C5: stripping the stereocenter of `C@O` leaves the reactant
segment `CC` untouched. -/
theorem remove_stereoalchemy_frame_witness :
    remove_stereoalchemy (fun _ => some (strChars "CO")) (strChars "CC>>C@O") =
      .ok (strChars "CC" ++ ssep ++ strChars "CO") :=
  remove_stereoalchemy_frame (fun _ => some (strChars "CO")) (strChars "CC>>C@O")
    (strChars "CC") (strChars "C@O") (strChars "CO") (by decide) (by decide)
    (by decide) rfl

/-- C1 (amended): on a merged two-segment reaction string whose product segment
parses, `no_carbon` returns a string (the input or the "Error: "-prefixed
sentinel) and `remove_stereoalchemy` returns a string; neither raises. -/
theorem filters_return_on_parseable_product (M : Type) (parse : Str → Option M)
    (hasCarbonMatch : M → Bool) (stripStereo : Str → Option Str)
    (rxn r p : Str) (hsplit : pysplit ssep rxn = [r, p])
    (hparse : ∃ m, parse p = some m) (hstrip : ∃ q, stripStereo p = some q) :
    (∃ s, no_carbon parse hasCarbonMatch rxn = .ok s ∧ (s = rxn ∨ errPrefixed s)) ∧
    (∃ s, remove_stereoalchemy stripStereo rxn = .ok s) := by
  obtain ⟨m, hm⟩ := hparse
  obtain ⟨q, hq⟩ := hstrip
  constructor
  · unfold no_carbon
    rw [hsplit]
    simp only [List.getElem?_cons_succ, List.getElem?_cons_zero]
    rw [hm]
    by_cases hc : hasCarbonMatch m = true
    · refine ⟨rxn, ?_, Or.inl rfl⟩
      show (if hasCarbonMatch m = true then Except.ok rxn
        else Except.ok errNoOrganic) = Except.ok rxn
      rw [if_pos hc]
    · refine ⟨errNoOrganic, ?_, Or.inr (by
        show (strChars "Error: ").isPrefixOf errNoOrganic = true
        decide)⟩
      show (if hasCarbonMatch m = true then Except.ok rxn
        else Except.ok errNoOrganic) = Except.ok errNoOrganic
      rw [if_neg hc]
  · unfold remove_stereoalchemy
    rw [hsplit]
    simp only [List.getElem?_cons_succ, List.getElem?_cons_zero, List.headI]
    by_cases h1 : occursB ['@'] p = true
    · rw [if_pos h1]
      by_cases h2 : occursB ['@'] r = true
      · rw [if_pos h2]
        exact ⟨rxn, rfl⟩
      · rw [if_neg h2, hq]
        exact ⟨pyreplace p q rxn, rfl⟩
    · rw [if_neg h1]
      exact ⟨rxn, rfl⟩

/-- Counterexample for C1 as stated: `no_carbon` raises (AttributeError from
`None.HasSubstructMatch(...)`) on a merged reaction whose product segment does
not parse, instead of returning an error-tagged string.  The parse function
returning `none` models `Chem.MolFromSmiles` returning `None` on invalid
SMILES; the repository's own `remove_reagents` and `multiproduct_fixer` guard
against exactly this `None` result, but `no_carbon` does not. -/
theorem no_carbon_raises_counterexample :
    no_carbon (M := Unit) (fun _ => none) (fun _ => true) (strChars "CC>>QQ") =
      .error .attributeError := rfl

/-- Witness for the amended C1 on a parseable product. -/
theorem filters_return_on_parseable_product_witness :
    (∃ s, no_carbon (M := Unit) (fun _ => some ()) (fun _ => true)
        (strChars "CC>>CO") = .ok s ∧ (s = strChars "CC>>CO" ∨ errPrefixed s)) ∧
    (∃ s, remove_stereoalchemy (fun x => some x) (strChars "CC>>CO") = .ok s) :=
  filters_return_on_parseable_product Unit (fun _ => some ()) (fun _ => true)
    (fun x => some x) (strChars "CC>>CO") (strChars "CC") (strChars "CO")
    (by decide) ⟨(), rfl⟩ ⟨strChars "CO", rfl⟩

/-- Collects a list of optional values, failing if any is `none` (models the
list comprehension `[CalcNumHeavyAtoms(mol) for mol in prod_mols]`, which
raises on the first `None` molecule). -/
def allSome {α : Type} : List (Option α) → Option (List α)
  | [] => some []
  | none :: _ => none
  | some a :: rest => (allSome rest).map (a :: ·)

/-- The product-retention test of `multiproduct_fixer`: parse and keep only
compounds with heavy-atom count greater than 5. -/
def survivorFilter {M : Type} (parse : Str → Option M) (heavyAtoms : M → Nat)
    (s : Str) : Bool :=
  match parse s with
  | some m => 5 < heavyAtoms m
  | none => false

/-- The product compounds of a product segment that survive the heavy-atom test. -/
def survivingProducts {M : Type} (parse : Str → Option M) (heavyAtoms : M → Nat)
    (pseg : Str) : List Str :=
  (pysplit dsep pseg).filter (survivorFilter parse heavyAtoms)

/-- Model of `multiproduct_fixer` (`2_cleaning.py` lines 113-132).  `parse` is
`MolFromSmiles` and `heavyAtoms` is `CalcNumHeavyAtoms`; the `try/except`
around the heavy-atom comprehension catches the failure on a `None` molecule
and yields the invalid-product sentinel. -/
def multiproduct_fixer {M : Type} (parse : Str → Option M) (heavyAtoms : M → Nat)
    (rxn_map : Str) : Except PyErr Str :=
  match (pysplit ssep rxn_map)[1]? with
  | none => .error .indexError
  | some prodseg =>
    if 1 < (pysplit dsep prodseg).length then
      match allSome ((pysplit dsep prodseg).map parse) with
      | none => .ok errInvalidProduct
      | some mols =>
        if ((((pysplit dsep prodseg).zip mols).filter
            (fun q => 5 < heavyAtoms q.2)).map Prod.fst).length = 1 then
          .ok ((pysplit ssep rxn_map).headI ++ ssep ++
            ((((pysplit dsep prodseg).zip mols).filter
              (fun q => 5 < heavyAtoms q.2)).map Prod.fst).headI)
        else .ok errTooManyProducts
    else
      match parse (pysplit dsep prodseg).headI with
      | some _ => .ok rxn_map
      | none => .ok errProductSmilesError

/-- When every product parses, the zip-based retention of `multiproduct_fixer`
coincides with filtering the product strings by the heavy-atom test. -/
theorem zip_filter_eq_survivors {M : Type} (parse : Str → Option M)
    (heavyAtoms : M → Nat) :
    ∀ (products : List Str) (mols : List M),
      allSome (products.map parse) = some mols →
      ((products.zip mols).filter (fun q => 5 < heavyAtoms q.2)).map Prod.fst =
        products.filter (survivorFilter parse heavyAtoms) := by
  intro products
  induction products with
  | nil =>
    intro mols h
    simp only [List.map_nil, allSome, Option.some.injEq] at h
    subst h
    rfl
  | cons s rest ih =>
    intro mols h
    rw [List.map_cons] at h
    cases hp : parse s with
    | none =>
      rw [hp] at h
      have hne : allSome (none :: rest.map parse) = (none : Option (List M)) := rfl
      rw [hne] at h
      cases h
    | some m =>
      rw [hp] at h
      have hsome : allSome (some m :: rest.map parse) =
          (allSome (rest.map parse)).map (m :: ·) := rfl
      rw [hsome] at h
      cases hrest : allSome (rest.map parse) with
      | none =>
        rw [hrest] at h
        exact Option.noConfusion h
      | some ms =>
        rw [hrest] at h
        obtain rfl : m :: ms = mols := Option.some.inj h
        rw [List.zip_cons_cons]
        by_cases hh : 5 < heavyAtoms m
        · rw [List.filter_cons_of_pos (by simpa using hh),
            List.filter_cons_of_pos (by simp [survivorFilter, hp, hh]),
            List.map_cons, ih ms hrest]
        · rw [List.filter_cons_of_neg (by simpa using hh),
            List.filter_cons_of_neg (by simp [survivorFilter, hp, hh]),
            ih ms hrest]

/-- A list whose elements all map to `some` collects successfully. -/
theorem allSome_of_forall {α β : Type} (f : α → Option β) :
    ∀ (l : List α), (∀ s ∈ l, ∃ m, f s = some m) →
      ∃ ms, allSome (l.map f) = some ms := by
  intro l
  induction l with
  | nil => intro _; exact ⟨[], rfl⟩
  | cons s rest ih =>
    intro hall
    obtain ⟨m, hm⟩ := hall s (List.mem_cons_self _ _)
    obtain ⟨ms, hms⟩ := ih (fun x hx => hall x (List.mem_cons.mpr (Or.inr hx)))
    refine ⟨m :: ms, ?_⟩
    rw [List.map_cons, hm]
    simp only [allSome]
    rw [hms]
    rfl

/-- C8: on a merged reaction whose product segment holds more than one compound,
all of which parse, `multiproduct_fixer` keeps exactly the compounds with
heavy-atom count greater than 5: it returns the reactant segment joined with the
sole survivor when exactly one survives, and the "Error: "-prefixed sentinel
when zero or several survive. -/
theorem multiproduct_fixer_spec {M : Type} (parse : Str → Option M)
    (heavyAtoms : M → Nat) (rxn_map r pseg : Str)
    (hsplit : pysplit ssep rxn_map = [r, pseg])
    (hmulti : 1 < (pysplit dsep pseg).length)
    (hall : ∀ s ∈ pysplit dsep pseg, ∃ m, parse s = some m) :
    ((survivingProducts parse heavyAtoms pseg).length = 1 →
      multiproduct_fixer parse heavyAtoms rxn_map =
        .ok (r ++ ssep ++ (survivingProducts parse heavyAtoms pseg).headI)) ∧
    ((survivingProducts parse heavyAtoms pseg).length ≠ 1 →
      multiproduct_fixer parse heavyAtoms rxn_map = .ok errTooManyProducts) ∧
    errPrefixed errTooManyProducts := by
  obtain ⟨mols, hmols⟩ := allSome_of_forall parse _ hall
  have hzf := zip_filter_eq_survivors parse heavyAtoms (pysplit dsep pseg) mols hmols
  have hfold : (pysplit dsep pseg).filter (survivorFilter parse heavyAtoms) =
      survivingProducts parse heavyAtoms pseg := rfl
  unfold multiproduct_fixer
  rw [hsplit]
  simp only [List.getElem?_cons_succ, List.getElem?_cons_zero, List.headI]
  rw [if_pos hmulti]
  simp only [hmols]
  rw [hzf, hfold]
  refine ⟨fun h => ?_, fun h => ?_, by
    show (strChars "Error: ").isPrefixOf errTooManyProducts = true
    decide⟩
  · rw [if_pos h]
  · rw [if_neg h]

/-- A toy heavy-atom oracle for the C8 scenario: a compound parses exactly when
it is a nonempty chain of `C` atoms, and its heavy-atom count is its length. -/
def chainParse (s : Str) : Option Nat :=
  if s ≠ [] ∧ s.all (fun c => c = 'C') then some s.length else none

/-- Witness for C8, the scenario of the claim: product segment `CC.CCCCCC`
where `CC` has 2 heavy atoms and `CCCCCC` has 6, so only `CCCCCC` survives. -/
theorem multiproduct_fixer_spec_witness :
    multiproduct_fixer chainParse (fun n => n) (strChars "CCCCCCC>>CC.CCCCCC") =
      .ok (strChars "CCCCCCC" ++ ssep ++ strChars "CCCCCC") := by
  have h := (multiproduct_fixer_spec chainParse (fun n => n)
    (strChars "CCCCCCC>>CC.CCCCCC") (strChars "CCCCCCC") (strChars "CC.CCCCCC")
    (by decide) (by decide)
    (by
      intro s hs
      have hps : pysplit dsep (strChars "CC.CCCCCC") =
          [strChars "CC", strChars "CCCCCC"] := by decide
      rw [hps] at hs
      rcases List.mem_cons.mp hs with rfl | hs2
      · exact ⟨2, by decide⟩
      · rcases List.mem_cons.mp hs2 with rfl | hs3
        · exact ⟨6, by decide⟩
        · cases hs3)).1 (by decide)
  rw [h]
  rw [show (survivingProducts chainParse (fun n => n)
    (strChars "CC.CCCCCC")).headI = strChars "CCCCCC" from by decide]

/-- A single-character pattern matches nowhere in a string avoiding that character. -/
theorem no_single_prefix_of_not_mem {x : Char} {t : Str} (hx : x ∉ t) :
    ∀ i, ¬ ([x]).isPrefixOf (t.drop i) := by
  intro i h
  cases hd : t.drop i with
  | nil => rw [hd] at h; simp [List.isPrefixOf] at h
  | cons c w =>
    rw [hd] at h
    simp only [List.isPrefixOf, Bool.and_eq_true, beq_iff_eq] at h
    have hc : c ∈ t := List.drop_subset i t (hd ▸ List.mem_cons_self c w)
    rw [← h.1] at hc
    exact hx hc

/-- A character absent from the separator and every part is absent from the join. -/
theorem not_mem_joinSep {x : Char} {sep : Str} (hsep : x ∉ sep) :
    ∀ L : List Str, (∀ t ∈ L, x ∉ t) → x ∉ joinSep sep L := by
  intro L
  induction L with
  | nil => intro _; simp [joinSep]
  | cons t ts ih =>
    intro h
    cases ts with
    | nil =>
      rw [joinSep_single]
      exact h t (List.mem_cons_self _ _)
    | cons t' ts' =>
      rw [joinSep_cons₂]
      intro hmem
      rcases List.mem_append.mp hmem with h1 | h2
      · rcases List.mem_append.mp h1 with ha | hb
        · exact h t (List.mem_cons_self _ _) ha
        · exact hsep hb
      · exact ih (fun u hu => h u (List.mem_cons.mpr (Or.inr hu))) h2

/-- Splitting the single-character join of parts avoiding that character
recovers the parts. -/
theorem pysplit_joinSep (x : Char) :
    ∀ L : List Str, L ≠ [] → (∀ t ∈ L, x ∉ t) →
      pysplit [x] (joinSep [x] L) = L := by
  intro L
  induction L with
  | nil => intro h; exact absurd rfl h
  | cons t ts ih =>
    intro _ hfree
    cases ts with
    | nil =>
      rw [joinSep_single]
      exact pysplit_single [x] t
        (no_single_prefix_of_not_mem (hfree t (List.mem_cons_self _ _)))
    | cons t' ts' =>
      rw [joinSep_cons₂]
      have hpre := pysplit_prepend [x] (by simp) t (joinSep [x] (t' :: ts')) (by
        intro i hi hc
        have hnp := no_prefix_headchar (h := x) (p := ([] : Str)) (a := t)
          (v := [x] ++ joinSep [x] (t' :: ts')) (hfree t (List.mem_cons_self _ _)) i hi
        rw [List.append_assoc] at hc
        exact hnp hc)
      rw [hpre, ih (by simp) (fun u hu => hfree u (List.mem_cons.mpr (Or.inr hu)))]

/-- `filterMap` with a function fixing every element of a list is the identity. -/
theorem filterMap_id_of {α : Type} (f : α → Option α) :
    ∀ l : List α, (∀ x ∈ l, f x = some x) → l.filterMap f = l := by
  intro l
  induction l with
  | nil => intro _; rfl
  | cons a l' ih =>
    intro h
    rw [List.filterMap_cons_some (h a (List.mem_cons_self _ _)),
      ih (fun x hx => h x (List.mem_cons.mpr (Or.inr hx)))]

/-- Filtering then testing with the same predicate agrees with testing directly. -/
theorem any_filter_self {α : Type} (p : α → Bool) :
    ∀ l : List α, (l.filter p).any p = l.any p := by
  intro l
  induction l with
  | nil => rfl
  | cons a l' ih =>
    by_cases hpa : p a = true
    · rw [List.filter_cons_of_pos hpa, List.any_cons, List.any_cons, ih]
    · rw [List.filter_cons_of_neg hpa, List.any_cons, ih]
      rw [Bool.eq_false_iff.mpr hpa]
      simp

/-- Fuel-indexed model of `re.findall(r":([0-9]+)\]", product)`: scan for `:`,
take the maximal digit run, and record it when it is nonempty and followed by
`]`; matching resumes after the `]`. -/
def findMapsF : Nat → Str → List Str
  | _, [] => []
  | 0, _ => []
  | f + 1, c :: rest =>
    if c = ':' then
      match rest.takeWhile Char.isDigit, rest.dropWhile Char.isDigit with
      | d :: ds, ']' :: tail => (d :: ds) :: findMapsF f tail
      | _, _ => findMapsF f rest
    else findMapsF f rest

/-- The atom-map indices of a product segment, as digit strings. -/
def findMaps (s : Str) : List Str := findMapsF s.length s

/-- The per-reactant body of the `remove_reagents` loop: parse the compound
(`None` drops it), mark it used when some atom map occurs in the product's
map set, clear the maps that do not, and serialize; unused compounds are
dropped. -/
def keepReactant {M : Type} (parse : Str → Option M) (toSmiles : M → Str)
    (mapNums : M → List Str) (clearKeep : M → List Str → M) (pmaps : List Str)
    (smiles : Str) : Option Str :=
  match parse smiles with
  | none => none
  | some mol =>
    if (mapNums mol).any (fun a => pmaps.contains a) then
      some (toSmiles (clearKeep mol pmaps))
    else none

/-- Unfolding lemma for `keepReactant` on an unparseable compound. -/
theorem keepReactant_none {M : Type} (parse : Str → Option M) (toSmiles : M → Str)
    (mapNums : M → List Str) (clearKeep : M → List Str → M) (pmaps : List Str)
    (s : Str) (hp : parse s = none) :
    keepReactant parse toSmiles mapNums clearKeep pmaps s = none := by
  unfold keepReactant
  rw [hp]

/-- Unfolding lemma for `keepReactant` on a parseable compound. -/
theorem keepReactant_eq {M : Type} (parse : Str → Option M) (toSmiles : M → Str)
    (mapNums : M → List Str) (clearKeep : M → List Str → M) (pmaps : List Str)
    (s : Str) (m : M) (hp : parse s = some m) :
    keepReactant parse toSmiles mapNums clearKeep pmaps s =
      if (mapNums m).any (fun a => pmaps.contains a) then
        some (toSmiles (clearKeep m pmaps))
      else none := by
  unfold keepReactant
  rw [hp]

/-- Model of `remove_reagents` (`2_cleaning.py` lines 81-101).  `parse`,
`toSmiles`, `mapNums` and `clearKeep` stand for `MolFromSmiles`,
`MolToSmiles(mol, True)`, the `molAtomMapNumber` properties of the mol's atoms,
and the loop that clears every atom map not in the product's map set. -/
def remove_reagents {M : Type} (parse : Str → Option M) (toSmiles : M → Str)
    (mapNums : M → List Str) (clearKeep : M → List Str → M) (rxn_map : Str) :
    Except PyErr Str :=
  match (pysplit ssep rxn_map)[1]? with
  | none => .error .indexError
  | some product =>
    .ok (joinSep dsep ((pysplit dsep (pysplit ssep rxn_map).headI).filterMap
      (keepReactant parse toSmiles mapNums clearKeep (findMaps product))) ++
      ssep ++ product)

/-- C6: `remove_reagents` is idempotent on merged two-segment reaction strings,
for any molecular backend in which reparsing a serialized cleared molecule
recovers it, clearing is idempotent and commutes with reading atom maps as a
filter, serialized compounds contain no compound or role separator, and an
empty compound string parses (if at all) to a map-free molecule. -/
theorem remove_reagents_idempotent {M : Type} (parse : Str → Option M)
    (toSmiles : M → Str) (mapNums : M → List Str) (clearKeep : M → List Str → M)
    (hround : ∀ s m keep, parse s = some m →
      parse (toSmiles (clearKeep m keep)) = some (clearKeep m keep))
    (hmapsClear : ∀ m keep, mapNums (clearKeep m keep) =
      (mapNums m).filter (fun a => keep.contains a))
    (hclearIdem : ∀ m keep, clearKeep (clearKeep m keep) keep = clearKeep m keep)
    (hclean : ∀ s m keep, parse s = some m →
      '.' ∉ toSmiles (clearKeep m keep) ∧ '>' ∉ toSmiles (clearKeep m keep))
    (hempty : ∀ m, parse [] = some m → mapNums m = [])
    (rxn_map r product : Str)
    (hsplit : pysplit ssep rxn_map = [r, product]) :
    ∃ out, remove_reagents parse toSmiles mapNums clearKeep rxn_map = .ok out ∧
      remove_reagents parse toSmiles mapNums clearKeep out = .ok out := by
  unfold remove_reagents
  rw [hsplit]
  simp only [List.getElem?_cons_succ, List.getElem?_cons_zero, List.headI]
  refine ⟨_, rfl, ?_⟩
  have hLprops : ∀ x ∈ (pysplit dsep r).filterMap
      (keepReactant parse toSmiles mapNums clearKeep (findMaps product)),
      keepReactant parse toSmiles mapNums clearKeep (findMaps product) x = some x ∧
        '.' ∉ x ∧ '>' ∉ x := by
    intro x hx
    rw [List.mem_filterMap] at hx
    obtain ⟨a, _, hKa⟩ := hx
    cases hp : parse a with
    | none =>
      rw [keepReactant_none parse toSmiles mapNums clearKeep _ a hp] at hKa
      cases hKa
    | some mol =>
      rw [keepReactant_eq parse toSmiles mapNums clearKeep _ a mol hp] at hKa
      by_cases hu : (mapNums mol).any
          (fun a => (findMaps product).contains a) = true
      · rw [if_pos hu] at hKa
        obtain rfl := Option.some.inj hKa
        refine ⟨?_, (hclean a mol _ hp).1, (hclean a mol _ hp).2⟩
        rw [keepReactant_eq parse toSmiles mapNums clearKeep _ _ _
          (hround a mol _ hp)]
        rw [hmapsClear mol _, any_filter_self, hu, hclearIdem mol _]
        rfl
      · rw [if_neg hu] at hKa
        cases hKa
  have hsplit2 : pysplit ssep (joinSep dsep ((pysplit dsep r).filterMap
      (keepReactant parse toSmiles mapNums clearKeep (findMaps product))) ++
      ssep ++ product) = [joinSep dsep ((pysplit dsep r).filterMap
      (keepReactant parse toSmiles mapNums clearKeep (findMaps product))),
      product] := by
    have hA : '>' ∉ joinSep dsep ((pysplit dsep r).filterMap
        (keepReactant parse toSmiles mapNums clearKeep (findMaps product))) :=
      not_mem_joinSep (by decide) _ (fun t ht => (hLprops t ht).2.2)
    have h1 := pysplit_prepend ssep (by simp [ssep])
      (joinSep dsep ((pysplit dsep r).filterMap
        (keepReactant parse toSmiles mapNums clearKeep (findMaps product))))
      product (by
        intro i hi hc
        have hnp := no_prefix_headchar (h := '>') (p := ['>'])
          (v := ssep ++ product) hA i hi
        rw [List.append_assoc] at hc
        exact hnp hc)
    have h2 : pysplit ssep product = [product] :=
      pysplit_single ssep product
        (pysplit_parts ssep (by simp [ssep]) rxn_map product (by rw [hsplit]; simp))
    rw [h1, h2]
  rw [hsplit2]
  simp only [List.getElem?_cons_succ, List.getElem?_cons_zero, List.headI]
  by_cases hL : (pysplit dsep r).filterMap
      (keepReactant parse toSmiles mapNums clearKeep (findMaps product)) = []
  · rw [hL]
    have hK0 : keepReactant parse toSmiles mapNums clearKeep (findMaps product)
        ([] : Str) = none := by
      cases hp0 : parse ([] : Str) with
      | none => exact keepReactant_none parse toSmiles mapNums clearKeep _ _ hp0
      | some m0 =>
        rw [keepReactant_eq parse toSmiles mapNums clearKeep _ _ m0 hp0,
          hempty m0 hp0]
        rfl
    have hsplit0 : pysplit dsep (joinSep dsep ([] : List Str)) = [[]] := rfl
    rw [hsplit0, List.filterMap_cons, hK0]
    rfl
  · rw [show dsep = ['.'] from rfl] at hL hLprops ⊢
    rw [pysplit_joinSep '.' _ hL (fun t ht => (hLprops t ht).2.1),
      filterMap_id_of _ _ (fun x hx => (hLprops x hx).1)]

/-- A toy molecular backend for the idempotence witness: a molecule is its list
of atom-map strings, each one character long; its canonical SMILES is `M`
followed by that character, per atom.  Characters clashing with the compound or
role separators are rejected by the parser. -/
def decMols : Str → Option (List Str)
  | [] => some []
  | c0 :: c :: rest =>
    if c0 = 'M' ∧ c ≠ '.' ∧ c ≠ '>' then (decMols rest).map ([c] :: ·) else none
  | _ => none

/-- Serialization for the toy backend of `decMols`. -/
def encMols (m : List Str) : Str := (m.map (fun x => 'M' :: x)).flatten

/-- Every map entry decoded by `decMols` is a single separator-free character. -/
theorem decMols_shape : ∀ (s : Str) (m : List Str), decMols s = some m →
    ∀ x ∈ m, ∃ c, x = [c] ∧ c ≠ '.' ∧ c ≠ '>' := by
  intro s m h
  induction m generalizing s with
  | nil => intro x hx; cases hx
  | cons x0 m' ih =>
    cases s with
    | nil => exact absurd (Option.some.inj h) (by simp)
    | cons c0 s1 =>
      cases s1 with
      | nil =>
        rw [show decMols [c0] = none from rfl] at h
        cases h
      | cons c rest =>
        rw [show decMols (c0 :: c :: rest) =
          if c0 = 'M' ∧ c ≠ '.' ∧ c ≠ '>' then (decMols rest).map ([c] :: ·)
          else none from rfl] at h
        by_cases hg : c0 = 'M' ∧ c ≠ '.' ∧ c ≠ '>'
        · rw [if_pos hg] at h
          cases hrest : decMols rest with
          | none => rw [hrest] at h; cases h
          | some mr =>
            rw [hrest] at h
            have hinj := Option.some.inj h
            injection hinj with h1 h2
            intro x hx
            rcases List.mem_cons.mp hx with rfl | hxm
            · exact ⟨c, h1.symm, hg.2.1, hg.2.2⟩
            · exact ih rest (by rw [hrest, h2]) x hxm
        · rw [if_neg hg] at h
          cases h

/-- Reparsing the toy serialization of a well-shaped map list recovers it. -/
theorem decMols_enc : ∀ m : List Str,
    (∀ x ∈ m, ∃ c, x = [c] ∧ c ≠ '.' ∧ c ≠ '>') →
    decMols (encMols m) = some m := by
  intro m
  induction m with
  | nil => intro _; rfl
  | cons x m' ih =>
    intro h
    obtain ⟨c, rfl, hc1, hc2⟩ := h x (List.mem_cons_self _ _)
    have he : encMols ([c] :: m') = 'M' :: c :: encMols m' := rfl
    rw [he]
    rw [show decMols ('M' :: c :: encMols m') =
      if 'M' = 'M' ∧ c ≠ '.' ∧ c ≠ '>' then (decMols (encMols m')).map ([c] :: ·)
      else none from rfl]
    rw [if_pos ⟨rfl, hc1, hc2⟩,
      ih (fun y hy => h y (List.mem_cons.mpr (Or.inr hy)))]
    rfl

/-- The toy serialization of a well-shaped map list avoids both separators. -/
theorem encMols_clean : ∀ m : List Str,
    (∀ x ∈ m, ∃ c, x = [c] ∧ c ≠ '.' ∧ c ≠ '>') →
    '.' ∉ encMols m ∧ '>' ∉ encMols m := by
  intro m
  induction m with
  | nil => intro _; exact ⟨by simp [encMols], by simp [encMols]⟩
  | cons x m' ih =>
    intro h
    obtain ⟨c, rfl, hc1, hc2⟩ := h x (List.mem_cons_self _ _)
    obtain ⟨ih1, ih2⟩ := ih (fun y hy => h y (List.mem_cons.mpr (Or.inr hy)))
    have he : encMols ([c] :: m') = 'M' :: c :: encMols m' := rfl
    rw [he]
    constructor
    · intro hmem
      rcases List.mem_cons.mp hmem with hx | hmem2
      · exact absurd hx (by decide)
      · rcases List.mem_cons.mp hmem2 with hx | hmem3
        · exact hc1 hx.symm
        · exact ih1 hmem3
    · intro hmem
      rcases List.mem_cons.mp hmem with hx | hmem2
      · exact absurd hx (by decide)
      · rcases List.mem_cons.mp hmem2 with hx | hmem3
        · exact hc2 hx.symm
        · exact ih2 hmem3

/-- Round-trip property of the toy backend through map clearing. -/
theorem decMols_round (s : Str) (m keep : List Str) (h : decMols s = some m) :
    decMols (encMols (m.filter (fun a => keep.contains a))) =
      some (m.filter (fun a => keep.contains a)) :=
  decMols_enc _ (fun x hx => decMols_shape s m h x (List.mem_of_mem_filter hx))

/-- Separator-freeness of the toy backend through map clearing. -/
theorem decMols_clean (s : Str) (m keep : List Str) (h : decMols s = some m) :
    '.' ∉ encMols (m.filter (fun a => keep.contains a)) ∧
      '>' ∉ encMols (m.filter (fun a => keep.contains a)) :=
  encMols_clean _ (fun x hx => decMols_shape s m h x (List.mem_of_mem_filter hx))

/-- Clearing maps twice is the same as clearing once in the toy backend. -/
theorem toy_clear_idem (m keep : List Str) :
    (m.filter (fun a => keep.contains a)).filter (fun a => keep.contains a) =
      m.filter (fun a => keep.contains a) := by
  rw [List.filter_filter]
  simp only [Bool.and_self]

/-- Witness for C6: idempotence of `remove_reagents` on a concrete mapped
reaction over the toy backend.  The first pass keeps `M1` (its map `1` appears
in the product) and drops `M2`; the second pass changes nothing. -/
theorem remove_reagents_idempotent_witness :
    ∃ out, remove_reagents decMols encMols (fun m => m)
        (fun m keep => m.filter (fun a => keep.contains a))
        (strChars "M1.M2>>[C:1]") = .ok out ∧
      remove_reagents decMols encMols (fun m => m)
        (fun m keep => m.filter (fun a => keep.contains a)) out = .ok out :=
  remove_reagents_idempotent decMols encMols (fun m => m)
    (fun m keep => m.filter (fun a => keep.contains a))
    decMols_round (fun _ _ => rfl) toy_clear_idem decMols_clean
    (fun m h => (Option.some.inj h).symm)
    (strChars "M1.M2>>[C:1]") (strChars "M1.M2") (strChars "[C:1]") (by decide)

/-- The two configuration keys read by `extract_templates`
(`extract_from_train_data.py` lines 72 and 86). -/
structure TArgs where
  /-- Whether chirality changes enter the template label. -/
  use_stereo : Bool
  /-- Retrosynthesis direction (only selects the diagnostic counters). -/
  retro : Bool

/-- The result dictionary returned by the external `extract_from_reaction`
collaborator, with optional fields standing for possibly missing keys (a
missing key raises KeyError, caught by the per-record handler).  `EK` is the
edit-type key; `EB`, `EC`, `ES` are the three components of an edit entry, of
which the code stores the third and reads the first for diagnostics. -/
structure ExtractorResult (EK EB EC ES : Type) where
  /-- Whether `'reactants' in result` holds. -/
  has_reactants : Bool
  /-- The minimal reaction pattern, when present. -/
  reaction_smarts : Option Str
  /-- The edit-type to edit-entry mapping, when present. -/
  edits : Option (List (EK × EB × EC × ES))
  /-- Per-site hydrogen-count changes in site order, when present. -/
  H_change : Option (List Int)
  /-- Per-site formal-charge changes in site order, when present. -/
  Charge_change : Option (List Int)
  /-- Per-site chirality changes in site order, when present. -/
  Chiral_change : Option (List Int)

/-- The structural metadata stored in the template registry at first sighting
(`TemplateEdits`, `TemplateHs`, `TemplateCs`, `TemplateSs`). -/
structure TInfo (EK ES : Type) where
  /-- `{edit_type: edits[edit_type][2] for edit_type in edits}`. -/
  edit_site : List (EK × ES)
  /-- The hydrogen-change encoding. -/
  change_H : List Int
  /-- The charge-change encoding. -/
  change_C : List Int
  /-- The chirality-change encoding (empty when stereo is disabled). -/
  change_S : List Int

/-- Decimal digits of a natural number (fuel-indexed model of Python `str`). -/
def natCharsF : Nat → Nat → Str
  | 0, _ => []
  | f + 1, n =>
    if n < 10 then [Char.ofNat (48 + n)]
    else natCharsF f (n / 10) ++ [Char.ofNat (48 + n % 10)]

/-- Decimal representation of a natural number. -/
def natChars (n : Nat) : Str := natCharsF (n + 1) n

/-- Python `str` of an integer change code. -/
def intChars (i : Int) : Str := if i < 0 then '-' :: natChars i.natAbs else natChars i.toNat

/-- The "NaN" failure sentinel label. -/
def nanLabel : Str := strChars "NaN"

/-- Model of `get_full_template` (`extract_from_train_data.py` lines 44-51):
concatenate the per-site change codes and join the pattern and codes with `_`;
the chirality code is appended only when its string is nonempty. -/
def get_full_template (template : Str) (H_change Charge_change Chiral_change : List Int) :
    Str :=
  if (Chiral_change.map intChars).flatten = [] then
    joinSep usep [template, (H_change.map intChars).flatten,
      (Charge_change.map intChars).flatten]
  else
    joinSep usep [template, (H_change.map intChars).flatten,
      (Charge_change.map intChars).flatten, (Chiral_change.map intChars).flatten]

/-- The per-record outcome of the `extract_templates` loop body
(`extract_from_train_data.py` lines 63-111): `none` is any caught exception
(missing `>>`, extractor failure, missing required fields), which yields the
"NaN" label; `some (label, info)` is a successful extraction. -/
def recordStep {EK EB EC ES : Type} (args : TArgs)
    (extractor : Str → Str → Nat → Except Unit (ExtractorResult EK EB EC ES))
    (i : Nat) (reaction : Str) : Option (Str × TInfo EK ES) :=
  match (pysplit ssep reaction)[1]? with
  | none => none
  | some prods =>
    match extractor (pysplit ssep reaction).headI prods i with
    | .error _ => none
    | .ok res =>
      if res.has_reactants = false ∨ res.reaction_smarts = none then none
      else
        match res.reaction_smarts, res.edits, res.H_change, res.Charge_change,
            (if args.use_stereo then res.Chiral_change else some []) with
        | some template, some edits, some H_change, some Charge_change,
            some Chiral_change =>
          some (get_full_template template H_change Charge_change Chiral_change,
            ⟨edits.map (fun e => (e.1, e.2.2.2)), H_change, Charge_change,
              Chiral_change⟩)
        | _, _, _, _, _ => none

/-- The mutable state of the `extract_templates` scan: the insertion-ordered
registry (`TemplateEdits`/`TemplateHs`/`TemplateCs`/`TemplateSs`, which share
their keys), the frequency counter (`TemplateFreq`), and the per-record label
sequence. -/
structure ExtractState (EK ES : Type) where
  /-- Insertion-ordered registry keyed by full template label. -/
  registry : List (Str × TInfo EK ES)
  /-- Insertion-ordered frequency table keyed by full template label. -/
  freq : List (Str × Nat)
  /-- The per-record label sequence accumulated so far. -/
  labels : List Str

/-- First-match lookup in an association list (Python `dict` access). -/
def lookupA {β : Type} : List (Str × β) → Str → Option β
  | [], _ => none
  | (k, v) :: rest, key => if k = key then some v else lookupA rest key

/-- `defaultdict(int)` increment: bump the key's counter, inserting it at the
end on first sighting. -/
def bumpFreq : List (Str × Nat) → Str → List (Str × Nat)
  | [], key => [(key, 1)]
  | (k, v) :: rest, key =>
    if k = key then (k, v + 1) :: rest else (k, v) :: bumpFreq rest key

/-- One iteration of the `extract_templates` loop: a failure appends "NaN"; a
success inserts the metadata at first sighting, appends the label, and always
increments the frequency. -/
def stepState {EK ES : Type} (st : ExtractState EK ES) :
    Option (Str × TInfo EK ES) → ExtractState EK ES
  | none => { st with labels := st.labels ++ [nanLabel] }
  | some (label, info) =>
    { registry :=
        match lookupA st.registry label with
        | none => st.registry ++ [(label, info)]
        | some _ => st.registry,
      freq := bumpFreq st.freq label,
      labels := st.labels ++ [label] }

/-- The `extract_templates` scan over an enumerated record list. -/
def runExtract {EK EB EC ES : Type} (args : TArgs)
    (extractor : Str → Str → Nat → Except Unit (ExtractorResult EK EB EC ES))
    (st : ExtractState EK ES) (l : List (Nat × Str)) : ExtractState EK ES :=
  l.foldl (fun st p => stepState st (recordStep args extractor p.1 p.2)) st

/-- Model of `extract_templates` (`extract_from_train_data.py` lines 53-120):
scan the enumerated reactions and emit the registry table (one row per unique
label: label, stored metadata, frequency) and the per-record label sequence. -/
def extract_templates {EK EB EC ES : Type} (args : TArgs)
    (extractor : Str → Str → Nat → Except Unit (ExtractorResult EK EB EC ES))
    (rxns : List Str) : List (Str × TInfo EK ES × Nat) × List Str :=
  ((runExtract args extractor ⟨[], [], []⟩ rxns.enum).registry.map
    (fun q => (q.1, q.2,
      (lookupA (runExtract args extractor ⟨[], [], []⟩ rxns.enum).freq q.1).getD 0)),
   (runExtract args extractor ⟨[], [], []⟩ rxns.enum).labels)

/-- The label contributed by a record: its template label on success, the
"NaN" sentinel on failure. -/
def outcomeLabel {EK ES : Type} : Option (Str × TInfo EK ES) → Str
  | none => nanLabel
  | some q => q.1

/-- Unfolding lemma for `stepState` on a failed record. -/
theorem stepState_none {EK ES : Type} (st : ExtractState EK ES) :
    stepState st none = { st with labels := st.labels ++ [nanLabel] } := rfl

/-- Unfolding lemma for `stepState` on a first-sighted label. -/
theorem stepState_some_new {EK ES : Type} (st : ExtractState EK ES)
    (label : Str) (info : TInfo EK ES) (h : lookupA st.registry label = none) :
    stepState st (some (label, info)) =
      ⟨st.registry ++ [(label, info)], bumpFreq st.freq label,
        st.labels ++ [label]⟩ := by
  have hred : stepState st (some (label, info)) =
      ⟨(match lookupA st.registry label with
        | none => st.registry ++ [(label, info)]
        | some _ => st.registry),
        bumpFreq st.freq label, st.labels ++ [label]⟩ := rfl
  rw [hred, h]

/-- Unfolding lemma for `stepState` on an already-registered label. -/
theorem stepState_some_old {EK ES : Type} (st : ExtractState EK ES)
    (label : Str) (info info0 : TInfo EK ES)
    (h : lookupA st.registry label = some info0) :
    stepState st (some (label, info)) =
      ⟨st.registry, bumpFreq st.freq label, st.labels ++ [label]⟩ := by
  have hred : stepState st (some (label, info)) =
      ⟨(match lookupA st.registry label with
        | none => st.registry ++ [(label, info)]
        | some _ => st.registry),
        bumpFreq st.freq label, st.labels ++ [label]⟩ := rfl
  rw [hred, h]

/-- Unfolding lemma for `runExtract` on an empty record list. -/
theorem runExtract_nil {EK EB EC ES : Type} (args : TArgs)
    (extractor : Str → Str → Nat → Except Unit (ExtractorResult EK EB EC ES))
    (st : ExtractState EK ES) : runExtract args extractor st [] = st := rfl

/-- Unfolding lemma for `runExtract` on a nonempty record list. -/
theorem runExtract_cons {EK EB EC ES : Type} (args : TArgs)
    (extractor : Str → Str → Nat → Except Unit (ExtractorResult EK EB EC ES))
    (st : ExtractState EK ES) (p : Nat × Str) (l : List (Nat × Str)) :
    runExtract args extractor st (p :: l) =
      runExtract args extractor (stepState st (recordStep args extractor p.1 p.2)) l :=
  rfl

/-- Lookup distributes over append when the key is found on the left. -/
theorem lookupA_append_some {β : Type} {r : List (Str × β)} {k : Str} {v : β}
    (h : lookupA r k = some v) (r₂ : List (Str × β)) :
    lookupA (r ++ r₂) k = some v := by
  induction r with
  | nil => cases h
  | cons q rest ih =>
    obtain ⟨k0, v0⟩ := q
    simp only [lookupA] at h
    simp only [List.cons_append, lookupA]
    by_cases hk : k0 = k
    · rw [if_pos hk] at h ⊢; exact h
    · rw [if_neg hk] at h ⊢; exact ih h

/-- Lookup distributes over append when the key is absent on the left. -/
theorem lookupA_append_none {β : Type} {r : List (Str × β)} {k : Str}
    (h : lookupA r k = none) (r₂ : List (Str × β)) :
    lookupA (r ++ r₂) k = lookupA r₂ k := by
  induction r with
  | nil => rfl
  | cons q rest ih =>
    obtain ⟨k0, v0⟩ := q
    simp only [lookupA] at h
    simp only [List.cons_append, lookupA]
    by_cases hk : k0 = k
    · rw [if_pos hk] at h; cases h
    · rw [if_neg hk] at h ⊢; exact ih h

/-- Lookup fails exactly when the key is not among the stored keys. -/
theorem lookupA_eq_none_iff {β : Type} (r : List (Str × β)) (k : Str) :
    lookupA r k = none ↔ k ∉ r.map Prod.fst := by
  induction r with
  | nil => exact ⟨fun _ => by simp, fun _ => rfl⟩
  | cons q rest ih =>
    obtain ⟨k0, v0⟩ := q
    simp only [lookupA, List.map_cons, List.mem_cons]
    by_cases hk : k0 = k
    · rw [if_pos hk]
      constructor
      · intro hc; cases hc
      · intro hc; exact (hc (Or.inl hk.symm)).elim
    · rw [if_neg hk]
      rw [ih]
      constructor
      · rintro hnm (hc | hc)
        · exact hk hc.symm
        · exact hnm hc
      · intro hnm hc
        exact hnm (Or.inr hc)

/-- A successful lookup means the key is stored. -/
theorem lookupA_mem {β : Type} {r : List (Str × β)} {k : Str} {v : β}
    (h : lookupA r k = some v) : k ∈ r.map Prod.fst := by
  by_contra hc
  rw [← lookupA_eq_none_iff] at hc
  rw [hc] at h
  cases h

/-- With nodup keys, membership determines the lookup result. -/
theorem lookupA_of_mem_nodup {β : Type} {r : List (Str × β)} {k : Str} {v : β}
    (hnd : (r.map Prod.fst).Nodup) (hmem : (k, v) ∈ r) : lookupA r k = some v := by
  induction r with
  | nil => cases hmem
  | cons q rest ih =>
    obtain ⟨k0, v0⟩ := q
    simp only [List.map_cons, List.nodup_cons] at hnd
    simp only [lookupA]
    rcases List.mem_cons.mp hmem with heq | hmem'
    · injection heq with h1 h2
      subst h1; subst h2
      rw [if_pos rfl]
    · by_cases hk : k0 = k
      · subst hk
        exact absurd (List.mem_map.mpr ⟨(k0, v), hmem', rfl⟩) hnd.1
      · rw [if_neg hk]
        exact ih hnd.2 hmem'

/-- Bumping an absent key appends it to the key list. -/
theorem bumpFreq_map_fst_not_mem {f : List (Str × Nat)} {k : Str}
    (h : k ∉ f.map Prod.fst) :
    (bumpFreq f k).map Prod.fst = f.map Prod.fst ++ [k] := by
  induction f with
  | nil => rfl
  | cons q rest ih =>
    obtain ⟨k0, v0⟩ := q
    simp only [List.map_cons, List.mem_cons] at h
    push_neg at h
    simp only [bumpFreq]
    rw [if_neg (fun hc => h.1 hc.symm)]
    simp only [List.map_cons, List.cons_append]
    rw [ih h.2]

/-- Bumping a present key leaves the key list unchanged. -/
theorem bumpFreq_map_fst_mem {f : List (Str × Nat)} {k : Str}
    (h : k ∈ f.map Prod.fst) :
    (bumpFreq f k).map Prod.fst = f.map Prod.fst := by
  induction f with
  | nil => cases h
  | cons q rest ih =>
    obtain ⟨k0, v0⟩ := q
    simp only [bumpFreq]
    by_cases hk : k0 = k
    · rw [if_pos hk]
      simp
    · rw [if_neg hk]
      simp only [List.map_cons]
      simp only [List.map_cons, List.mem_cons] at h
      rcases h with hc | h2
      · exact absurd hc.symm hk
      · rw [ih h2]

/-- Bumping increments the bumped key's counter (0 when absent). -/
theorem lookupA_bumpFreq_self (f : List (Str × Nat)) (k : Str) :
    lookupA (bumpFreq f k) k = some ((lookupA f k).getD 0 + 1) := by
  induction f with
  | nil => simp [bumpFreq, lookupA]
  | cons q rest ih =>
    obtain ⟨k0, v0⟩ := q
    simp only [bumpFreq, lookupA]
    by_cases hk : k0 = k
    · rw [if_pos hk]
      simp only [lookupA]
      rw [if_pos hk, if_pos hk]
      rfl
    · rw [if_neg hk]
      simp only [lookupA]
      rw [if_neg hk, if_neg hk]
      exact ih

/-- Bumping leaves every other counter unchanged. -/
theorem lookupA_bumpFreq_ne {f : List (Str × Nat)} {k k' : Str} (h : k' ≠ k) :
    lookupA (bumpFreq f k) k' = lookupA f k' := by
  induction f with
  | nil =>
    simp only [bumpFreq, lookupA]
    rw [if_neg (fun hc => h hc.symm)]
  | cons q rest ih =>
    obtain ⟨k0, v0⟩ := q
    simp only [bumpFreq, lookupA]
    by_cases hk : k0 = k
    · rw [if_pos hk]
      simp only [lookupA]
      rw [if_neg (fun hc => h (hc.symm.trans hk)),
        if_neg (fun hc => h (hc.symm.trans hk))]
    · rw [if_neg hk]
      simp only [lookupA]
      by_cases hk' : k0 = k'
      · rw [if_pos hk', if_pos hk']
      · rw [if_neg hk', if_neg hk']
        exact ih

/-- A successful step bumps the frequency table regardless of the registry. -/
theorem stepState_some_freq {EK ES : Type} (st : ExtractState EK ES)
    (label : Str) (info : TInfo EK ES) :
    (stepState st (some (label, info))).freq = bumpFreq st.freq label := by
  cases hl : lookupA st.registry label with
  | none => rw [stepState_some_new st label info hl]
  | some i0 => rw [stepState_some_old st label info i0 hl]

/-- The scan appends one label per record, in order: the template label on
success and "NaN" on failure. -/
theorem runExtract_labels {EK EB EC ES : Type} (args : TArgs)
    (extractor : Str → Str → Nat → Except Unit (ExtractorResult EK EB EC ES)) :
    ∀ (l : List (Nat × Str)) (st : ExtractState EK ES),
      (runExtract args extractor st l).labels =
        st.labels ++ l.map (fun p => outcomeLabel (recordStep args extractor p.1 p.2)) := by
  intro l
  induction l with
  | nil => intro st; simp [runExtract_nil]
  | cons p l' ih =>
    intro st
    rw [runExtract_cons, ih]
    cases ho : recordStep args extractor p.1 p.2 with
    | none =>
      rw [stepState_none]
      simp [outcomeLabel, ho]
    | some q =>
      obtain ⟨label, info⟩ := q
      cases hl : lookupA st.registry label with
      | none =>
        rw [stepState_some_new st label info hl]
        simp [outcomeLabel, ho]
      | some i0 =>
        rw [stepState_some_old st label info i0 hl]
        simp [outcomeLabel, ho]

/-- The scan invariant: registry keys are distinct and the frequency table has
exactly the registry's keys. -/
def RegInv {EK ES : Type} (st : ExtractState EK ES) : Prop :=
  (st.registry.map Prod.fst).Nodup ∧ st.freq.map Prod.fst = st.registry.map Prod.fst

/-- One step preserves the scan invariant. -/
theorem stepState_regInv {EK ES : Type} {st : ExtractState EK ES}
    (hinv : RegInv st) (o : Option (Str × TInfo EK ES)) :
    RegInv (stepState st o) := by
  obtain ⟨h1, h2⟩ := hinv
  cases o with
  | none => exact ⟨h1, h2⟩
  | some q =>
    obtain ⟨label, info⟩ := q
    cases hl : lookupA st.registry label with
    | none =>
      rw [stepState_some_new st label info hl]
      have hnm : label ∉ st.registry.map Prod.fst := (lookupA_eq_none_iff _ _).mp hl
      constructor
      · simp only [List.map_append, List.map_cons, List.map_nil]
        rw [List.nodup_append]
        refine ⟨h1, List.nodup_singleton _, ?_⟩
        intro a ha hb
        rw [List.mem_singleton] at hb
        subst hb
        exact hnm ha
      · rw [bumpFreq_map_fst_not_mem (h2 ▸ hnm)]
        simp [h2]
    | some i0 =>
      rw [stepState_some_old st label info i0 hl]
      have hm : label ∈ st.registry.map Prod.fst := lookupA_mem hl
      exact ⟨h1, by rw [bumpFreq_map_fst_mem (h2 ▸ hm)]; exact h2⟩

/-- The whole scan preserves the invariant. -/
theorem runExtract_regInv {EK EB EC ES : Type} (args : TArgs)
    (extractor : Str → Str → Nat → Except Unit (ExtractorResult EK EB EC ES)) :
    ∀ (l : List (Nat × Str)) (st : ExtractState EK ES), RegInv st →
      RegInv (runExtract args extractor st l) := by
  intro l
  induction l with
  | nil => intro st h; exact h
  | cons p l' ih =>
    intro st h
    rw [runExtract_cons]
    exact ih _ (stepState_regInv h _)

/-- Each label's final count is its starting count plus the number of
successful records carrying that label. -/
theorem runExtract_freq {EK EB EC ES : Type} (args : TArgs)
    (extractor : Str → Str → Nat → Except Unit (ExtractorResult EK EB EC ES)) :
    ∀ (l : List (Nat × Str)) (st : ExtractState EK ES) (k : Str),
      (lookupA (runExtract args extractor st l).freq k).getD 0 =
        (lookupA st.freq k).getD 0 +
          ((l.filterMap (fun p => recordStep args extractor p.1 p.2)).map
            Prod.fst).count k := by
  intro l
  induction l with
  | nil => intro st k; simp [runExtract_nil]
  | cons p l' ih =>
    intro st k
    rw [runExtract_cons]
    cases ho : recordStep args extractor p.1 p.2 with
    | none =>
      have hfm : List.filterMap (fun q => recordStep args extractor q.1 q.2) (p :: l') =
          List.filterMap (fun q => recordStep args extractor q.1 q.2) l' := by
        simp only [List.filterMap_cons, ho]
      rw [hfm, ih, stepState_none]
    | some q =>
      obtain ⟨label, info⟩ := q
      have hfm : List.filterMap (fun q => recordStep args extractor q.1 q.2) (p :: l') =
          (label, info) :: List.filterMap (fun q => recordStep args extractor q.1 q.2) l' := by
        simp only [List.filterMap_cons, ho]
      rw [hfm, ih, List.map_cons, List.count_cons, stepState_some_freq]
      by_cases hk : k = label
      · subst hk
        rw [lookupA_bumpFreq_self]
        simp only [Option.getD_some, beq_self_eq_true, if_true]
        omega
      · rw [lookupA_bumpFreq_ne hk]
        have hbf : (label == k) = false := by
          simp only [beq_eq_false_iff_ne, ne_eq]
          exact fun hc => hk hc.symm
        rw [hbf]
        simp

/-- A registry entry, once stored, is never modified by later steps. -/
theorem stepState_persist {EK ES : Type} {st : ExtractState EK ES} {k : Str}
    {info : TInfo EK ES} (h : lookupA st.registry k = some info)
    (o : Option (Str × TInfo EK ES)) :
    lookupA (stepState st o).registry k = some info := by
  cases o with
  | none => exact h
  | some q =>
    obtain ⟨label, info'⟩ := q
    cases hl : lookupA st.registry label with
    | none =>
      rw [stepState_some_new st label info' hl]
      exact lookupA_append_some h _
    | some i0 =>
      rw [stepState_some_old st label info' i0 hl]
      exact h

/-- A registry entry, once stored, survives the rest of the scan unchanged. -/
theorem runExtract_persist {EK EB EC ES : Type} (args : TArgs)
    (extractor : Str → Str → Nat → Except Unit (ExtractorResult EK EB EC ES)) :
    ∀ (l : List (Nat × Str)) (st : ExtractState EK ES) (k : Str)
      (info : TInfo EK ES), lookupA st.registry k = some info →
      lookupA (runExtract args extractor st l).registry k = some info := by
  intro l
  induction l with
  | nil => intro st k info h; exact h
  | cons p l' ih =>
    intro st k info h
    rw [runExtract_cons]
    exact ih _ k info (stepState_persist h _)

/-- Every successful record's label ends up in the registry. -/
theorem runExtract_complete {EK EB EC ES : Type} (args : TArgs)
    (extractor : Str → Str → Nat → Except Unit (ExtractorResult EK EB EC ES)) :
    ∀ (l : List (Nat × Str)) (st : ExtractState EK ES) (p : Nat × Str)
      (k : Str) (info : TInfo EK ES), p ∈ l →
      recordStep args extractor p.1 p.2 = some (k, info) →
      ∃ info2, lookupA (runExtract args extractor st l).registry k = some info2 := by
  intro l
  induction l with
  | nil => intro st p k info h; cases h
  | cons q l' ih =>
    intro st p k info hmem ho
    rw [runExtract_cons]
    rcases List.mem_cons.mp hmem with rfl | hmem'
    · rw [ho]
      cases hl : lookupA st.registry k with
      | none =>
        refine ⟨info, runExtract_persist args extractor l' _ k info ?_⟩
        rw [stepState_some_new st k info hl]
        rw [lookupA_append_none hl]
        simp [lookupA]
      | some i0 =>
        refine ⟨i0, runExtract_persist args extractor l' _ k i0 ?_⟩
        rw [stepState_some_old st k info i0 hl]
        exact hl
    · exact ih _ p k info hmem' ho

/-- First-occurrence-wins: a registry entry's metadata comes from the first
record, in scan order, that successfully produced its label. -/
theorem runExtract_first {EK EB EC ES : Type} (args : TArgs)
    (extractor : Str → Str → Nat → Except Unit (ExtractorResult EK EB EC ES)) :
    ∀ (l : List (Nat × Str)) (k : Str) (info : TInfo EK ES),
      lookupA (runExtract args extractor ⟨[], [], []⟩ l).registry k = some info →
      ∃ l₁ p l₂, l = l₁ ++ p :: l₂ ∧
        recordStep args extractor p.1 p.2 = some (k, info) ∧
        ∀ q ∈ l₁, ∀ info', recordStep args extractor q.1 q.2 ≠ some (k, info') := by
  intro l
  induction l using List.reverseRecOn with
  | nil => intro k info h; cases h
  | append_singleton l p ih =>
    intro k info h
    have hsplitrun : runExtract args extractor ⟨[], [], []⟩ (l ++ [p]) =
        stepState (runExtract args extractor ⟨[], [], []⟩ l)
          (recordStep args extractor p.1 p.2) := by
      unfold runExtract
      rw [List.foldl_append]
      rfl
    rw [hsplitrun] at h
    cases ho : recordStep args extractor p.1 p.2 with
    | none =>
      rw [ho, stepState_none] at h
      obtain ⟨l₁, q, l₂, hdec, hq, hfirst⟩ := ih k info h
      exact ⟨l₁, q, l₂ ++ [p], by rw [hdec]; simp, hq, hfirst⟩
    | some out =>
      obtain ⟨label, info'⟩ := out
      rw [ho] at h
      cases hl : lookupA (runExtract args extractor ⟨[], [], []⟩ l).registry label with
      | some i0 =>
        rw [stepState_some_old _ label info' i0 hl] at h
        obtain ⟨l₁, q, l₂, hdec, hq, hfirst⟩ := ih k info h
        exact ⟨l₁, q, l₂ ++ [p], by rw [hdec]; simp, hq, hfirst⟩
      | none =>
        rw [stepState_some_new _ label info' hl] at h
        cases hk : lookupA (runExtract args extractor ⟨[], [], []⟩ l).registry k with
        | some i1 =>
          rw [lookupA_append_some hk] at h
          obtain rfl := Option.some.inj h
          obtain ⟨l₁, q, l₂, hdec, hq, hfirst⟩ := ih k i1 hk
          exact ⟨l₁, q, l₂ ++ [p], by rw [hdec]; simp, hq, hfirst⟩
        | none =>
          rw [lookupA_append_none hk] at h
          simp only [lookupA] at h
          by_cases hkl : label = k
          · rw [if_pos hkl] at h
            obtain rfl := Option.some.inj h
            subst hkl
            refine ⟨l, p, [], rfl, ho, ?_⟩
            intro q hq info' hcontra
            obtain ⟨info3, hlook⟩ :=
              runExtract_complete args extractor l ⟨[], [], []⟩ q label info' hq hcontra
            rw [hk] at hlook
            cases hlook
          · rw [if_neg hkl] at h
            cases h

/-- The sum of a per-key tally over nodup rows changes by one when one stored
key's tally is incremented. -/
theorem sum_update_single {β : Type} (g g' : Str → Nat) (k : Str) :
    ∀ reg : List (Str × β), (reg.map Prod.fst).Nodup → k ∈ reg.map Prod.fst →
      (∀ k', k' ≠ k → g' k' = g k') → g' k = g k + 1 →
      (reg.map (fun q => g' q.1)).sum = (reg.map (fun q => g q.1)).sum + 1 := by
  intro reg
  induction reg with
  | nil => intro _ hmem; cases hmem
  | cons q rest ih =>
    intro hnd hmem hne hself
    obtain ⟨k0, v0⟩ := q
    simp only [List.map_cons, List.nodup_cons] at hnd
    simp only [List.map_cons, List.sum_cons]
    rcases List.mem_cons.mp hmem with heq | hmem'
    · subst heq
      rw [hself]
      have hrest : rest.map (fun q => g' q.1) = rest.map (fun q => g q.1) := by
        apply List.map_congr_left
        intro a ha
        exact hne a.1 (fun hc => hnd.1 (hc ▸ List.mem_map.mpr ⟨a, ha, rfl⟩))
      rw [hrest]
      omega
    · by_cases hk0 : k0 = k
      · subst hk0
        exact absurd hmem' hnd.1
      · rw [hne k0 hk0, ih hnd.2 hmem' hne hself]
        omega

/-- The registry total of per-label frequencies. -/
def registrySum {EK ES : Type} (st : ExtractState EK ES) : Nat :=
  (st.registry.map (fun q => (lookupA st.freq q.1).getD 0)).sum

/-- Each step taken on a success increases the registry total by one; failures
leave it unchanged. -/
theorem runExtract_sum {EK EB EC ES : Type} (args : TArgs)
    (extractor : Str → Str → Nat → Except Unit (ExtractorResult EK EB EC ES)) :
    ∀ (l : List (Nat × Str)) (st : ExtractState EK ES), RegInv st →
      registrySum (runExtract args extractor st l) =
        registrySum st +
          (l.filterMap (fun q => recordStep args extractor q.1 q.2)).length := by
  intro l
  induction l with
  | nil => intro st _; simp [runExtract_nil]
  | cons p l' ih =>
    intro st hinv
    rw [runExtract_cons]
    cases ho : recordStep args extractor p.1 p.2 with
    | none =>
      have hfm : List.filterMap (fun q => recordStep args extractor q.1 q.2) (p :: l') =
          List.filterMap (fun q => recordStep args extractor q.1 q.2) l' := by
        simp only [List.filterMap_cons, ho]
      rw [hfm, ih _ (stepState_regInv hinv _), stepState_none]
      rfl
    | some out =>
      obtain ⟨label, info⟩ := out
      have hfm : List.filterMap (fun q => recordStep args extractor q.1 q.2) (p :: l') =
          (label, info) :: List.filterMap (fun q => recordStep args extractor q.1 q.2) l' := by
        simp only [List.filterMap_cons, ho]
      rw [hfm, ih _ (stepState_regInv hinv _)]
      have hstep : registrySum (stepState st (some (label, info))) =
          registrySum st + 1 := by
        cases hl : lookupA st.registry label with
        | none =>
          rw [stepState_some_new st label info hl]
          unfold registrySum
          simp only [List.map_append, List.map_cons, List.map_nil, List.sum_append,
            List.sum_cons, List.sum_nil]
          have hnm : label ∉ st.registry.map Prod.fst := (lookupA_eq_none_iff _ _).mp hl
          have hold : st.registry.map
              (fun q => (lookupA (bumpFreq st.freq label) q.1).getD 0) =
              st.registry.map (fun q => (lookupA st.freq q.1).getD 0) := by
            apply List.map_congr_left
            intro a ha
            have hane : a.1 ≠ label := by
              intro hc
              exact hnm (by rw [← hc]; exact List.mem_map.mpr ⟨a, ha, rfl⟩)
            rw [lookupA_bumpFreq_ne hane]
          rw [hold, lookupA_bumpFreq_self]
          have hzero : lookupA st.freq label = none := by
            rw [lookupA_eq_none_iff, hinv.2]
            exact hnm
          rw [hzero]
          simp
        | some i0 =>
          rw [stepState_some_old st label info i0 hl]
          unfold registrySum
          exact sum_update_single (fun key => (lookupA st.freq key).getD 0)
            (fun key => (lookupA (bumpFreq st.freq label) key).getD 0) label
            st.registry hinv.1 (lookupA_mem hl)
            (fun k' hk' => by
              show (lookupA (bumpFreq st.freq label) k').getD 0 =
                (lookupA st.freq k').getD 0
              rw [lookupA_bumpFreq_ne hk'])
            (by
              show (lookupA (bumpFreq st.freq label) label).getD 0 =
                (lookupA st.freq label).getD 0 + 1
              rw [lookupA_bumpFreq_self]
              rfl)
      rw [hstep]
      simp only [List.length_cons]
      omega

/-- Decimal digits never contain the label field separator. -/
theorem usep_not_mem_natCharsF : ∀ fuel n, '_' ∉ natCharsF fuel n := by
  intro fuel
  induction fuel with
  | zero => intro n; simp [natCharsF]
  | succ f ih =>
    intro n
    simp only [natCharsF]
    have hd : ∀ m, m < 10 → Char.ofNat (48 + m) ≠ '_' := by decide
    by_cases hn : n < 10
    · rw [if_pos hn]
      simp only [List.mem_singleton]
      exact fun hc => hd n hn hc.symm
    · rw [if_neg hn]
      intro hmem
      rcases List.mem_append.mp hmem with h1 | h2
      · exact ih _ h1
      · rw [List.mem_singleton] at h2
        exact hd (n % 10) (Nat.mod_lt _ (by norm_num)) h2.symm

/-- A rendered integer change code never contains the field separator. -/
theorem usep_not_mem_intChars (i : Int) : '_' ∉ intChars i := by
  unfold intChars
  by_cases hi : i < 0
  · rw [if_pos hi]
    intro hmem
    rcases List.mem_cons.mp hmem with hc | hc
    · exact absurd hc (by decide)
    · exact usep_not_mem_natCharsF _ _ hc
  · rw [if_neg hi]
    exact usep_not_mem_natCharsF _ _

/-- A concatenated change-code string never contains the field separator. -/
theorem usep_not_mem_code (L : List Int) : '_' ∉ (L.map intChars).flatten := by
  intro hmem
  rw [List.mem_flatten] at hmem
  obtain ⟨t, ht, hmt⟩ := hmem
  rw [List.mem_map] at ht
  obtain ⟨j, _, rfl⟩ := ht
  exact usep_not_mem_intChars j hmt

/-- Every full template label contains the field separator. -/
theorem usep_mem_get_full_template (t : Str) (H C S : List Int) :
    '_' ∈ get_full_template t H C S := by
  unfold get_full_template
  by_cases hS : (S.map intChars).flatten = []
  · rw [if_pos hS, joinSep_cons₂]
    exact List.mem_append.mpr (Or.inl (List.mem_append.mpr (Or.inr (by simp [usep]))))
  · rw [if_neg hS, joinSep_cons₂]
    exact List.mem_append.mpr (Or.inl (List.mem_append.mpr (Or.inr (by simp [usep]))))

/-- Every successful record's label contains the field separator (so it is
never the "NaN" sentinel). -/
theorem recordStep_label_underscore {EK EB EC ES : Type} (args : TArgs)
    (extractor : Str → Str → Nat → Except Unit (ExtractorResult EK EB EC ES))
    (i : Nat) (r k : Str) (info : TInfo EK ES)
    (h : recordStep args extractor i r = some (k, info)) : '_' ∈ k := by
  unfold recordStep at h
  repeat' split at h
  all_goals try exact Option.noConfusion h
  injection h with hpr
  have hk : get_full_template _ _ _ _ = k := congrArg Prod.fst hpr
  rw [← hk]
  exact usep_mem_get_full_template _ _ _ _

/-- With stereo disabled, every stored chirality encoding is empty: the scan
substitutes the empty mapping before building the label and the registry
entry. -/
theorem recordStep_stereo_off {EK EB EC ES : Type} (args : TArgs)
    (extractor : Str → Str → Nat → Except Unit (ExtractorResult EK EB EC ES))
    (i : Nat) (r k : Str) (info : TInfo EK ES)
    (hstereo : args.use_stereo = false)
    (h : recordStep args extractor i r = some (k, info)) : info.change_S = [] := by
  unfold recordStep at h
  repeat' split at h
  all_goals try exact Option.noConfusion h
  rename_i tpl eds Hc Cc Sc h4 h3 h2 h1 h0
  rw [hstereo] at h0
  simp only [Bool.false_eq_true, if_false] at h0
  obtain rfl := Option.some.inj h0
  injection h with hpr
  have hS : ([] : List Int) = info.change_S := congrArg (fun q => q.2.change_S) hpr
  exact hS.symm

/-- Among the emitted labels, the non-"NaN" ones are exactly the successes. -/
theorem filter_outcome_length {EK EB EC ES : Type} (args : TArgs)
    (extractor : Str → Str → Nat → Except Unit (ExtractorResult EK EB EC ES)) :
    ∀ l : List (Nat × Str),
      ((l.map (fun p => outcomeLabel (recordStep args extractor p.1 p.2))).filter
        (fun s => ! (s == nanLabel))).length =
      (l.filterMap (fun q => recordStep args extractor q.1 q.2)).length := by
  intro l
  induction l with
  | nil => rfl
  | cons p l' ih =>
    rw [List.map_cons]
    cases ho : recordStep args extractor p.1 p.2 with
    | none =>
      have hfm : List.filterMap (fun q => recordStep args extractor q.1 q.2) (p :: l') =
          List.filterMap (fun q => recordStep args extractor q.1 q.2) l' := by
        simp only [List.filterMap_cons, ho]
      rw [hfm, List.filter_cons_of_neg (by simp [outcomeLabel]), ih]
    | some out =>
      obtain ⟨k, info⟩ := out
      have hund : '_' ∈ k := recordStep_label_underscore args extractor p.1 p.2 k info ho
      have hkne : k ≠ nanLabel := by
        intro hc
        rw [hc] at hund
        exact absurd hund (by decide)
      have hfm : List.filterMap (fun q => recordStep args extractor q.1 q.2) (p :: l') =
          (k, info) :: List.filterMap (fun q => recordStep args extractor q.1 q.2) l' := by
        simp only [List.filterMap_cons, ho]
      rw [hfm, List.filter_cons_of_pos (by simp [outcomeLabel, hkne]), List.length_cons,
        List.length_cons, ih]

/-- C2: the sum of the Frequency column over the emitted template registry
equals the number of non-"NaN" labels in the emitted label sequence. -/
theorem extract_templates_freq_sum {EK EB EC ES : Type} (args : TArgs)
    (extractor : Str → Str → Nat → Except Unit (ExtractorResult EK EB EC ES))
    (rxns : List Str) :
    ((extract_templates args extractor rxns).1.map (fun row => row.2.2)).sum =
      ((extract_templates args extractor rxns).2.filter
        (fun l => ! (l == nanLabel))).length := by
  have hinv : RegInv (⟨[], [], []⟩ : ExtractState EK ES) := ⟨List.nodup_nil, rfl⟩
  have hlhs : ((extract_templates args extractor rxns).1.map (fun row => row.2.2)).sum =
      registrySum (runExtract args extractor ⟨[], [], []⟩ rxns.enum) := by
    show (((runExtract args extractor ⟨[], [], []⟩ rxns.enum).registry.map _).map _).sum = _
    rw [List.map_map]
    rfl
  have hlab : (extract_templates args extractor rxns).2 =
      rxns.enum.map (fun p => outcomeLabel (recordStep args extractor p.1 p.2)) := by
    show (runExtract args extractor ⟨[], [], []⟩ rxns.enum).labels = _
    rw [runExtract_labels]
    simp
  rw [hlhs, runExtract_sum args extractor rxns.enum _ hinv, hlab,
    filter_outcome_length args extractor rxns.enum,
    show registrySum (⟨[], [], []⟩ : ExtractState EK ES) = 0 from rfl, Nat.zero_add]

/-- C3: the scan emits exactly one label per input record, in input order — the
template label on success and "NaN" on any failure — never aborts, and every
registry row's label and metadata come from some successful record. -/
theorem extract_templates_per_record {EK EB EC ES : Type} (args : TArgs)
    (extractor : Str → Str → Nat → Except Unit (ExtractorResult EK EB EC ES))
    (rxns : List Str) :
    (extract_templates args extractor rxns).2 =
      rxns.enum.map (fun p => outcomeLabel (recordStep args extractor p.1 p.2)) ∧
    (extract_templates args extractor rxns).2.length = rxns.length ∧
    ∀ row ∈ (extract_templates args extractor rxns).1,
      ∃ p ∈ rxns.enum, recordStep args extractor p.1 p.2 = some (row.1, row.2.1) := by
  have hlab : (extract_templates args extractor rxns).2 =
      rxns.enum.map (fun p => outcomeLabel (recordStep args extractor p.1 p.2)) := by
    show (runExtract args extractor ⟨[], [], []⟩ rxns.enum).labels = _
    rw [runExtract_labels]
    simp
  refine ⟨hlab, ?_, ?_⟩
  · rw [hlab, List.length_map, List.enum_length]
  · intro row hrow
    obtain ⟨q, hq, heq⟩ := List.mem_map.mp hrow
    obtain ⟨k, info⟩ := q
    subst heq
    have hinv := runExtract_regInv args extractor rxns.enum ⟨[], [], []⟩
      ⟨List.nodup_nil, rfl⟩
    have hlook : lookupA (runExtract args extractor ⟨[], [], []⟩ rxns.enum).registry k =
        some info := lookupA_of_mem_nodup hinv.1 hq
    obtain ⟨l₁, p, l₂, hdec, hp, _⟩ :=
      runExtract_first args extractor rxns.enum k info hlook
    exact ⟨p, by rw [hdec]; simp, hp⟩

/-- C4: every registry row's stored metadata is the metadata of the first
record, in input order, that successfully produced its label; every record with
that label contributes exactly one to its Frequency. -/
theorem extract_templates_first_wins {EK EB EC ES : Type} (args : TArgs)
    (extractor : Str → Str → Nat → Except Unit (ExtractorResult EK EB EC ES))
    (rxns : List Str) (row : Str × TInfo EK ES × Nat)
    (hrow : row ∈ (extract_templates args extractor rxns).1) :
    (∃ l₁ p l₂, rxns.enum = l₁ ++ p :: l₂ ∧
      recordStep args extractor p.1 p.2 = some (row.1, row.2.1) ∧
      ∀ q ∈ l₁, ∀ info', recordStep args extractor q.1 q.2 ≠ some (row.1, info')) ∧
    row.2.2 = ((rxns.enum.filterMap (fun q => recordStep args extractor q.1 q.2)).map
      Prod.fst).count row.1 := by
  obtain ⟨q, hq, heq⟩ := List.mem_map.mp hrow
  obtain ⟨k, info⟩ := q
  subst heq
  have hinv := runExtract_regInv args extractor rxns.enum ⟨[], [], []⟩
    ⟨List.nodup_nil, rfl⟩
  have hlook : lookupA (runExtract args extractor ⟨[], [], []⟩ rxns.enum).registry k =
      some info := lookupA_of_mem_nodup hinv.1 hq
  constructor
  · exact runExtract_first args extractor rxns.enum k info hlook
  · have hfr := runExtract_freq args extractor rxns.enum ⟨[], [], []⟩ k
    show (lookupA (runExtract args extractor ⟨[], [], []⟩ rxns.enum).freq k).getD 0 = _
    rw [hfr, show ((lookupA ([] : List (Str × Nat)) k).getD 0) = 0 from rfl, Nat.zero_add]

/-- A constant extractor used by the witnesses and the field-count
counterexample: every record succeeds with pattern `T`, one site with hydrogen
change `1` and charge change `0`, and an empty chirality mapping. -/
def exW : Str → Str → Nat → Except Unit (ExtractorResult Unit Unit Unit Unit) :=
  fun _ _ _ => .ok ⟨true, some (strChars "T"), some [], some [1], some [0], some []⟩

/-- Witness for C4: two identical records; the registry row carries the first
record's metadata and Frequency 2. -/
theorem extract_templates_first_wins_witness :
    (∃ l₁ p l₂, ([strChars "C>>C", strChars "C>>C"] : List Str).enum = l₁ ++ p :: l₂ ∧
      recordStep ⟨false, false⟩ exW p.1 p.2 =
        some (strChars "T_1_0", ⟨[], [1], [0], []⟩) ∧
      ∀ q ∈ l₁, ∀ info', recordStep ⟨false, false⟩ exW q.1 q.2 ≠
        some (strChars "T_1_0", info')) ∧
    2 = ((([strChars "C>>C", strChars "C>>C"] : List Str).enum.filterMap
      (fun q => recordStep ⟨false, false⟩ exW q.1 q.2)).map Prod.fst).count
        (strChars "T_1_0") :=
  extract_templates_first_wins ⟨false, false⟩ exW
    [strChars "C>>C", strChars "C>>C"]
    (strChars "T_1_0", ⟨[], [1], [0], []⟩, 2)
    (by
      rw [show (extract_templates ⟨false, false⟩ exW
        [strChars "C>>C", strChars "C>>C"]).1 =
        [(strChars "T_1_0", ⟨[], [1], [0], []⟩, 2)] from rfl]
      exact List.mem_singleton.mpr rfl)

/-- Counterexample for C10 as stated: with stereo use enabled, a successful
extraction whose chirality mapping is empty still yields a label with three
fields, so the field count is not determined by the configuration alone. -/
theorem stereo_enabled_three_fields_counterexample :
    (extract_templates ⟨true, true⟩ exW [strChars "C>>C"]).2 = [strChars "T_1_0"] ∧
    strChars "T_1_0" ≠ nanLabel ∧
    (pysplit usep (strChars "T_1_0")).length = 3 :=
  ⟨rfl, by decide, by decide⟩

/-- C10 (amended): the full template label joins with `_` the pattern, the
concatenated hydrogen codes, and the concatenated charge codes; the chirality
code is appended as a fourth field exactly when its concatenation is nonempty,
and with stereo use disabled the scan always supplies an empty chirality
mapping, so disabled configurations always produce three-field labels. -/
theorem get_full_template_fields (template : Str) (H C S : List Int)
    (ht : '_' ∉ template) :
    ((S.map intChars).flatten = [] →
      pysplit usep (get_full_template template H C S) =
        [template, (H.map intChars).flatten, (C.map intChars).flatten]) ∧
    ((S.map intChars).flatten ≠ [] →
      pysplit usep (get_full_template template H C S) =
        [template, (H.map intChars).flatten, (C.map intChars).flatten,
          (S.map intChars).flatten]) ∧
    (∀ (EK EB EC ES : Type) (args : TArgs)
      (extractor : Str → Str → Nat → Except Unit (ExtractorResult EK EB EC ES))
      (i : Nat) (r k : Str) (info : TInfo EK ES), args.use_stereo = false →
      recordStep args extractor i r = some (k, info) → info.change_S = []) := by
  refine ⟨?_, ?_, fun EK EB EC ES args extractor i r k info hs h =>
    recordStep_stereo_off args extractor i r k info hs h⟩
  · intro hS
    unfold get_full_template
    rw [if_pos hS]
    rw [show usep = ['_'] from rfl]
    refine pysplit_joinSep '_' _ (by simp) ?_
    intro t hmem
    rcases List.mem_cons.mp hmem with rfl | hmem2
    · exact ht
    rcases List.mem_cons.mp hmem2 with rfl | hmem3
    · exact usep_not_mem_code H
    rcases List.mem_cons.mp hmem3 with rfl | hmem4
    · exact usep_not_mem_code C
    cases hmem4
  · intro hS
    unfold get_full_template
    rw [if_neg hS]
    rw [show usep = ['_'] from rfl]
    refine pysplit_joinSep '_' _ (by simp) ?_
    intro t hmem
    rcases List.mem_cons.mp hmem with rfl | hmem2
    · exact ht
    rcases List.mem_cons.mp hmem2 with rfl | hmem3
    · exact usep_not_mem_code H
    rcases List.mem_cons.mp hmem3 with rfl | hmem4
    · exact usep_not_mem_code C
    rcases List.mem_cons.mp hmem4 with rfl | hmem5
    · exact usep_not_mem_code S
    cases hmem5

/-- Witness for the amended C10: with an empty chirality mapping the label has
the three fields pattern, hydrogen code, charge code. -/
theorem get_full_template_fields_witness :
    pysplit usep (get_full_template (strChars "T") [1] [0] []) =
      [strChars "T", strChars "1", strChars "0"] :=
  (get_full_template_fields (strChars "T") [1] [0] [] (by decide)).1 (by decide)
